import Mathlib

/-!
# A shallow embedding of the MiniC IR generator

This development embeds the IR-generation core of the MiniC compiler
(`src/ir/Generator/IRGenerator.cpp`) as executable Lean functions, and proves
properties of the translator that the specification states.

Modelling conventions:

* The AST (`ast_node`) becomes the inductive `AstNode`.  The translator-owned
  output fields of a node (`blockInsts`, `val`) become the *result* of visiting
  the node (`VRes`), since in the C++ they are freshly filled by the node's
  handler.  The `true_label` / `false_label` slots swapped by `ir_not` are
  omitted: no handler ever reads them, so the swap is unobservable.
* C++ `Value *` operands may be null (e.g. an unresolved identifier leaves
  `node->val == nullptr` while the handler still returns true); operands are
  therefore `Option Value`.  Value identity (pointer equality) is modelled by
  fresh numeric ids drawn from counters.
* Instructions that are themselves values (Binary, Unary, FuncCall, Move)
  carry a fresh id; `Value.instrRef id` is the value of such an instruction.
* A C++ null-pointer dereference (e.g. `currentFunc->...` while no function is
  current) and an out-of-bounds `sons[i]` access are undefined behaviour; the
  embedding returns `none` (no defined result) there.  Running out of fuel
  also returns `none`; every claim is settled either on concrete inputs with
  ample fuel or with a hypothesis that the run produced a result.
* `Module.cpp`, `Function.cpp` and `LabelInstruction.cpp` are not under
  `src/`; the corresponding helpers are modelled from the spec (each such
  definition says so in its doc comment).  Everything else is translated from
  `IRGenerator.cpp` / `BranchInstruction.cpp`.
-/

namespace MiniC

/-- The tiny closed type system (spec section 3): integer-32, one-bit boolean,
void.  Identity-based comparison in the source becomes decidable equality. -/
inductive Ty where
  | tint
  | tbool
  | tvoid
deriving DecidableEq, Repr

/-- Binary opcodes used by `BinaryInstruction` (arithmetic and relational). -/
inductive BinOp where
  | addI
  | subI
  | mulI
  | divI
  | modI
  | eqI
  | neI
  | ltI
  | leI
  | gtI
  | geI
deriving DecidableEq, Repr

/-- SSA-like values.  `constInt` is `ConstInt`; `localVar` is a
`LocalVariable` created by `Module::newVarValue` (user variable or temporary);
`instrRef` is an instruction used as a value (pointer identity becomes the
instruction's fresh id).  `FormalParameter` values never arise: the
formal-parameter handler in the source is a stub. -/
inductive Value where
  | constInt (v : Int)
  | localVar (id : Nat) (ty : Ty)
  | instrRef (id : Nat)
deriving DecidableEq, Repr

/-- The concrete IR instruction variants (spec section 3.3).  Labels are
identified by their textual name; branch/goto targets store the target
label's name (the textual form printed by `BranchInstruction::toString` /
`GotoInstruction`).  The owning-function back pointer carried by every C++
instruction is dropped: it is never consulted by the generator. -/
inductive Instr where
  | entry
  | exit (ret : Option Value)
  | label (name : String)
  | move (id : Nat) (dst src : Option Value)
  | binary (id : Nat) (op : BinOp) (lhs rhs : Option Value) (resTy : Ty)
  | unary (id : Nat) (operand : Option Value) (resTy : Ty)
  | bt (cond : Option Value) (target : String)
  | bf (cond : Option Value) (target : String)
  | bc (cond : Option Value) (trueTarget falseTarget : String)
  | goto (target : String)
  | funcCall (id : Nat) (callee : String) (args : List (Option Value)) (retTy : Ty)
deriving DecidableEq, Repr

/-- An IR function (spec section 3.4): name, return type, formal parameters,
linear instruction sequence (`InterCode`), exit label, return-value slot, and
the two call-statistics fields mutated by `ir_function_call`. -/
structure IRFunction where
  name : String
  retTy : Ty
  params : List Ty
  interCode : List Instr
  exitLabel : Option String
  retValue : Option Value
  existFuncCall : Bool
  maxFuncCallArgCnt : Int
deriving DecidableEq, Repr

/-- Modelled from the spec: the `Module` (spec section 3.5) — registry of
functions keyed by unique name, a stack of lexical scopes (innermost first)
mapping identifiers to values, a counter for naming locals/temporaries, and
the current-function slot (`Module.cpp` is not under `src/`). -/
structure ModuleState where
  funcs : List IRFunction
  scopes : List (List (String × Value))
  varCnt : Nat
  curFunc : Option String
deriving DecidableEq, Repr

/-- The generator's own state: the module, the process-wide label counter of
`IRGenerator::generateLabel`, a fresh-id counter for instruction values, and
the loop-context stack of `(entry, body, exit)` label triples.

`anyFail` is ghost instrumentation, not part of the source state: it is set
(only) by the dispatch wrapper whenever some handler returns failure, and lets
theorems talk about runs in which no handler ever failed. -/
structure GenState where
  mod : ModuleState
  labelCnt : Nat
  instCnt : Nat
  loopCtx : List (String × String × String)
  anyFail : Bool
deriving DecidableEq, Repr

/-- Modelled from the spec: function lookup by name in the module registry. -/
def lookupFunc (m : ModuleState) (nm : String) : Option IRFunction :=
  m.funcs.find? fun g => g.name == nm

/-- Modelled from the spec: `Module::newFunction(name, returnType)` fails if
the name is already registered, otherwise creates a fresh function with empty
`InterCode` and no formal parameters (the source never populates formals). -/
def mkFunc (nm : String) (ty : Ty) : IRFunction :=
  { name := nm, retTy := ty, params := [], interCode := [],
    exitLabel := none, retValue := none, existFuncCall := false,
    maxFuncCallArgCnt := 0 }

def newFunction (m : ModuleState) (nm : String) (ty : Ty) : Option ModuleState :=
  match lookupFunc m nm with
  | some _ => none
  | none => some { m with funcs := m.funcs ++ [mkFunc nm ty] }

/-- Apply an update to the function registered under `nm` (identity if the
name is absent).  This models in-place mutation through a C++ `Function *`. -/
def updateFunc (m : ModuleState) (nm : String) (f : IRFunction → IRFunction) : ModuleState :=
  { m with funcs := m.funcs.map fun g => if g.name == nm then f g else g }

/-- `InterCode::addInst` on the function registered under `nm`. -/
def appendToFunc (m : ModuleState) (nm : String) (insts : List Instr) : ModuleState :=
  updateFunc m nm fun g => { g with interCode := g.interCode ++ insts }

/-- Modelled from the spec: `Module::enterScope` pushes a fresh scope frame. -/
def enterScope (m : ModuleState) : ModuleState :=
  { m with scopes := [] :: m.scopes }

/-- Modelled from the spec: `Module::leaveScope` pops the innermost frame. -/
def leaveScope (m : ModuleState) : ModuleState :=
  { m with scopes := m.scopes.tail }

/-- Modelled from the spec: bind a name in the innermost scope frame. -/
def bindVar (m : ModuleState) (nm : String) (v : Value) : ModuleState :=
  match m.scopes with
  | [] => m
  | s :: rest => { m with scopes := ((nm, v) :: s) :: rest }

/-- Modelled from the spec: `Module::findVarValue` scans scope frames from
innermost outward; first hit wins; null (here `none`) when not found. -/
def findVarValue (m : ModuleState) (nm : String) : Option Value :=
  m.scopes.findSome? fun s => (s.find? fun p => p.1 == nm).map Prod.snd

/-- Modelled from the spec: `Module::newVarValue(type)` — a fresh unnamed
local temporary, not bound in any scope. -/
def newVarValueTmp (m : ModuleState) (ty : Ty) : Value × ModuleState :=
  (Value.localVar m.varCnt ty, { m with varCnt := m.varCnt + 1 })

/-- Modelled from the spec: `Module::newVarValue(type, name)` — a fresh local
variable bound to `name` in the innermost scope. -/
def newVarValueNamed (m : ModuleState) (ty : Ty) (nm : String) : Value × ModuleState :=
  let v := Value.localVar m.varCnt ty
  (v, bindVar { m with varCnt := m.varCnt + 1 } nm v)

/-- The textual label name produced for counter value `k`
(`IRGenerator::generateLabel` returns `"L" + std::to_string(labelCount++)`). -/
def mkLabel (k : Nat) : String :=
  "L" ++ Nat.repr k

/-- `IRGenerator::generateLabel`: take the current counter value, bump it. -/
def genLabel (st : GenState) : String × GenState :=
  (mkLabel st.labelCnt, { st with labelCnt := st.labelCnt + 1 })

/-- A fresh id for an instruction that is itself a value. -/
def genInstId (st : GenState) : Nat × GenState :=
  (st.instCnt, { st with instCnt := st.instCnt + 1 })

/-- The AST-operator enumeration (spec section 6.1) — exactly the tags for
which the constructor of `IRGenerator` registers a handler. -/
inductive AstOp where
  | CompileUnit
  | FuncDef
  | FuncFormalParams
  | FuncCall
  | Block
  | DeclStmt
  | VarDecl
  | Assign
  | Return
  | If
  | While
  | Break
  | Continue
  | Add
  | Sub
  | Mul
  | Div
  | Mod
  | Neg
  | And
  | Or
  | Not
  | Eq
  | Ne
  | Lt
  | Le
  | Gt
  | Ge
  | LeafLitUint
  | LeafVarId
  | LeafType
deriving DecidableEq, Repr

/-- An AST node: tag, ordered children (`sons`), literal payloads
(`integer_val`, `name`, `type`) and the `needScope` flag consumed by block
nodes.  `line_no` only feeds log messages and is omitted (logging is I/O,
outside the embedding). -/
inductive AstNode where
  | mk (op : AstOp) (sons : List AstNode) (integerVal : Int) (name : String)
      (ty : Ty) (needScope : Bool)

def AstNode.op : AstNode → AstOp
  | .mk o _ _ _ _ _ => o

def AstNode.sons : AstNode → List AstNode
  | .mk _ s _ _ _ _ => s

def AstNode.integerVal : AstNode → Int
  | .mk _ _ i _ _ _ => i

def AstNode.name : AstNode → String
  | .mk _ _ _ nm _ _ => nm

def AstNode.ty : AstNode → Ty
  | .mk _ _ _ _ t _ => t

def AstNode.needScope : AstNode → Bool
  | .mk _ _ _ _ _ b => b

/-- The outcome of visiting one node: the handler's boolean result, the state
after the visit, and the node's translator-owned output fields `blockInsts`
and `val` as they stand when the handler returns (also on failure — the C++
parent can still read them, and `ir_if` / `ir_while` do). -/
structure VRes where
  ok : Bool
  st : GenState
  insts : List Instr
  val : Option Value
deriving DecidableEq, Repr

/-- The type of `ir_visit_ast_node` as seen by a handler visiting children. -/
abbrev Visitor := GenState → AstNode → Option VRes

/-- Visit statements in order, splicing each successful child's instructions
(`ir_block`'s loop; also the compile-unit loop shape).  On a child's failure
the loop stops: the failing child's instructions are not spliced, those of
earlier children remain. -/
def visitSeq (v : Visitor) : GenState → List AstNode → Option (Bool × GenState × List Instr)
  | st, [] => some (true, st, [])
  | st, n :: rest => do
      let r ← v st n
      if r.ok then
        match ← visitSeq v r.st rest with
        | (ok2, st2, insts2) => some (ok2, st2, r.insts ++ insts2)
      else
        some (false, r.st, [])

/-- Visit children without splicing instructions (`ir_compile_unit`'s loop:
it only checks for failure). -/
def visitAll (v : Visitor) : GenState → List AstNode → Option (Bool × GenState)
  | st, [] => some (true, st)
  | st, n :: rest => do
      let r ← v st n
      if r.ok then visitAll v r.st rest else some (false, r.st)

/-- The argument loop of `ir_function_call`: visit each argument
left-to-right, collecting its value (pushed before the splice) and splicing
its instructions.  On failure the failing argument's value and instructions
are dropped and the loop aborts. -/
def visitArgs (v : Visitor) :
    GenState → List AstNode → Option (Bool × GenState × List Instr × List (Option Value))
  | st, [] => some (true, st, [], [])
  | st, n :: rest => do
      let r ← v st n
      if r.ok then
        match ← visitArgs v r.st rest with
        | (ok2, st2, insts2, vals2) => some (ok2, st2, r.insts ++ insts2, r.val :: vals2)
      else
        some (false, r.st, [], [])

/-! ## The per-tag handlers, translated from `IRGenerator.cpp`. -/

/-- `IRGenerator::ir_default` — unknown tag: log and report success.  (With
the closed `AstOp` enumeration every tag has a handler, so this is only
reachable if dispatch were extended; kept for fidelity of `run`'s contract.) -/
def ir_default (_st : GenState) (_n : AstNode) : Option VRes :=
  some { ok := true, st := _st, insts := [], val := none }

/-- `IRGenerator::ir_leaf_node_uint` — a literal becomes a `ConstInt` value
via `module->newConstInt((int32_t) node->integer_val)`. -/
def toInt32 (v : Int) : Int :=
  (v + 2 ^ 31) % 2 ^ 32 - 2 ^ 31

def ir_leaf_node_uint (st : GenState) (n : AstNode) : Option VRes :=
  some { ok := true, st := st, insts := [], val := some (Value.constInt (toInt32 n.integerVal)) }

/-- `IRGenerator::ir_leaf_node_var_id` — look the name up in the scopes; the
handler returns true even when the lookup fails (`val` stays null). -/
def ir_leaf_node_var_id (st : GenState) (n : AstNode) : Option VRes :=
  some { ok := true, st := st, insts := [], val := findVarValue st.mod n.name }

/-- `IRGenerator::ir_leaf_node_type` — nothing to do. -/
def ir_leaf_node_type (st : GenState) (_n : AstNode) : Option VRes :=
  some { ok := true, st := st, insts := [], val := none }

/-- The common body of `ir_add`/`ir_sub`/`ir_mul`/`ir_div`/`ir_mod`: visit
left, fail fast, visit right, fail fast, emit a `Binary` with integer-32
result; the instruction is the node's value. -/
def ir_arith (v : Visitor) (st : GenState) (n : AstNode) (op : BinOp) : Option VRes :=
  match n.sons with
  | lN :: rN :: _ =>
      match v st lN with
      | none => none
      | some rl =>
          if rl.ok then
            match v rl.st rN with
            | none => none
            | some rr =>
                if rr.ok then
                  let (id, st2) := genInstId rr.st
                  some { ok := true, st := st2,
                         insts := rl.insts ++ rr.insts ++ [Instr.binary id op rl.val rr.val Ty.tint],
                         val := some (Value.instrRef id) }
                else
                  some { ok := false, st := rr.st, insts := [], val := none }
          else
            some { ok := false, st := rl.st, insts := [], val := none }
  | _ => none

def ir_add (v : Visitor) (st : GenState) (n : AstNode) : Option VRes :=
  ir_arith v st n BinOp.addI

def ir_sub (v : Visitor) (st : GenState) (n : AstNode) : Option VRes :=
  ir_arith v st n BinOp.subI

def ir_mul (v : Visitor) (st : GenState) (n : AstNode) : Option VRes :=
  ir_arith v st n BinOp.mulI

def ir_div (v : Visitor) (st : GenState) (n : AstNode) : Option VRes :=
  ir_arith v st n BinOp.divI

def ir_mod (v : Visitor) (st : GenState) (n : AstNode) : Option VRes :=
  ir_arith v st n BinOp.modI

/-- `IRGenerator::ir_neg` — visit the operand, emit `Unary(NEG_I)`. -/
def ir_neg (v : Visitor) (st : GenState) (n : AstNode) : Option VRes :=
  match n.sons with
  | srcN :: _ =>
      match v st srcN with
      | none => none
      | some r =>
          if r.ok then
            let (id, st2) := genInstId r.st
            some { ok := true, st := st2,
                   insts := r.insts ++ [Instr.unary id r.val Ty.tint],
                   val := some (Value.instrRef id) }
          else
            some { ok := false, st := r.st, insts := [], val := none }
  | _ => none

/-- `IRGenerator::ir_relop` — requires a current function; visits *both*
children before checking either result; emits a `Binary` with boolean result
type. -/
def ir_relop (v : Visitor) (st : GenState) (n : AstNode) (op : BinOp) : Option VRes :=
  match st.mod.curFunc with
  | none => some { ok := false, st := st, insts := [], val := none }
  | some _ =>
      match n.sons with
      | lN :: rN :: _ =>
          match v st lN with
          | none => none
          | some rl =>
              match v rl.st rN with
              | none => none
              | some rr =>
                  if rl.ok && rr.ok then
                    let (id, st2) := genInstId rr.st
                    some { ok := true, st := st2,
                           insts := rl.insts ++ rr.insts ++
                             [Instr.binary id op rl.val rr.val Ty.tbool],
                           val := some (Value.instrRef id) }
                  else
                    some { ok := false, st := rr.st, insts := [], val := none }
      | _ => none

def ir_eq (v : Visitor) (st : GenState) (n : AstNode) : Option VRes :=
  ir_relop v st n BinOp.eqI

def ir_ne (v : Visitor) (st : GenState) (n : AstNode) : Option VRes :=
  ir_relop v st n BinOp.neI

def ir_lt (v : Visitor) (st : GenState) (n : AstNode) : Option VRes :=
  ir_relop v st n BinOp.ltI

def ir_le (v : Visitor) (st : GenState) (n : AstNode) : Option VRes :=
  ir_relop v st n BinOp.leI

def ir_gt (v : Visitor) (st : GenState) (n : AstNode) : Option VRes :=
  ir_relop v st n BinOp.gtI

def ir_ge (v : Visitor) (st : GenState) (n : AstNode) : Option VRes :=
  ir_relop v st n BinOp.geI

/-- `IRGenerator::ir_and` — short-circuit AND.  Translated faithfully: the
child visits' results are discarded (their failure is not propagated), and
the left-true label instruction is appended *twice* (lines 540 and 549 of the
source, the second with the comment "reuse the left operand's trueLabel");
the final end label is a fresh instruction carrying the same name as the
`Goto` targets. -/
def ir_and (v : Visitor) (st : GenState) (n : AstNode) : Option VRes :=
  match st.mod.curFunc with
  | none => some { ok := false, st := st, insts := [], val := none }
  | some _ =>
      match n.sons with
      | leftN :: rightN :: _ =>
          let (ltl, st1) := genLabel st
          let (lfl, st2) := genLabel st1
          let (lel, st3) := genLabel st2
          match v st3 leftN with
          | none => none
          | some rl =>
              match v rl.st rightN with
              | none => none
              | some rr =>
                  let (res, mod2) := newVarValueTmp rr.st.mod Ty.tint
                  let (mid1, st4) := genInstId { rr.st with mod := mod2 }
                  let (mid2, st5) := genInstId st4
                  some { ok := true, st := st5,
                         insts :=
                           rl.insts ++ [Instr.bf rl.val lfl, Instr.label ltl] ++
                           rr.insts ++ [Instr.bf rr.val lfl, Instr.label ltl,
                             Instr.move mid1 (some res) (some (Value.constInt 1)),
                             Instr.goto lel, Instr.label lfl,
                             Instr.move mid2 (some res) (some (Value.constInt 0)),
                             Instr.goto lel, Instr.label lel],
                         val := some res }
      | _ => none

/-- `IRGenerator::ir_or` — short-circuit OR, with the source's asymmetric
terminator shape: after the true-materialization and its `goto`, the end
label is emitted and the false-materialization follows it with no trailing
`goto`. -/
def ir_or (v : Visitor) (st : GenState) (n : AstNode) : Option VRes :=
  match st.mod.curFunc with
  | none => some { ok := false, st := st, insts := [], val := none }
  | some _ =>
      match n.sons with
      | leftN :: rightN :: _ =>
          let (ltl, st1) := genLabel st
          let (lfl, st2) := genLabel st1
          let (lel, st3) := genLabel st2
          match v st3 leftN with
          | none => none
          | some rl =>
              match v rl.st rightN with
              | none => none
              | some rr =>
                  let (res, mod2) := newVarValueTmp rr.st.mod Ty.tint
                  let (mid1, st4) := genInstId { rr.st with mod := mod2 }
                  let (mid2, st5) := genInstId st4
                  some { ok := true, st := st5,
                         insts :=
                           rl.insts ++ [Instr.bt rl.val ltl, Instr.label lfl] ++
                           rr.insts ++ [Instr.bt rr.val ltl, Instr.label ltl,
                             Instr.move mid1 (some res) (some (Value.constInt 1)),
                             Instr.goto lel, Instr.label lel,
                             Instr.move mid2 (some res) (some (Value.constInt 0))],
                         val := some res }
      | _ => none

/-- `IRGenerator::ir_not` — swaps the node's (unused) true/false label slots
and recurses on the operand, propagating its boolean result.  The NOT node's
own instruction buffer and value remain untouched (empty / null). -/
def ir_not (v : Visitor) (st : GenState) (n : AstNode) : Option VRes :=
  match st.mod.curFunc with
  | none => some { ok := false, st := st, insts := [], val := none }
  | some _ =>
      match n.sons with
      | son :: _ =>
          match v st son with
          | none => none
          | some r => some { ok := r.ok, st := r.st, insts := [], val := none }
      | _ => none

/-- `IRGenerator::ir_assign` — visit LHS first (fail fast), then RHS (fail
fast); splice RHS instructions, then LHS instructions, then the `Move`; the
`Move` instruction is the node's value. -/
def ir_assign (v : Visitor) (st : GenState) (n : AstNode) : Option VRes :=
  match n.sons with
  | lN :: rN :: _ =>
      match v st lN with
      | none => none
      | some rl =>
          if rl.ok then
            match v rl.st rN with
            | none => none
            | some rr =>
                if rr.ok then
                  let (id, st2) := genInstId rr.st
                  some { ok := true, st := st2,
                         insts := rr.insts ++ rl.insts ++ [Instr.move id rl.val rr.val],
                         val := some (Value.instrRef id) }
                else
                  some { ok := false, st := rr.st, insts := [], val := none }
          else
            some { ok := false, st := rl.st, insts := [], val := none }
  | _ => none

/-- `IRGenerator::ir_return` — with a child: visit it (fail fast), emit
`Move(returnValue, child.val)`, then `Goto(exitLabel)`; without a child just
the `Goto`.  Dereferences the current function for the return slot and exit
label. -/
def ir_return (v : Visitor) (st : GenState) (n : AstNode) : Option VRes :=
  match n.sons with
  | son :: _ =>
      match v st son with
      | none => none
      | some r =>
          if r.ok then
            match r.st.mod.curFunc with
            | none => none
            | some cf =>
                match lookupFunc r.st.mod cf with
                | none => none
                | some f =>
                    match f.exitLabel with
                    | none => none
                    | some l =>
                        let (id, st2) := genInstId r.st
                        some { ok := true, st := st2,
                               insts := r.insts ++ [Instr.move id f.retValue r.val, Instr.goto l],
                               val := r.val }
          else
            some { ok := false, st := r.st, insts := [], val := none }
  | [] =>
      match st.mod.curFunc with
      | none => none
      | some cf =>
          match lookupFunc st.mod cf with
          | none => none
          | some f =>
              match f.exitLabel with
              | none => none
              | some l =>
                  some { ok := true, st := st, insts := [Instr.goto l], val := none }

/-- The body of `IRGenerator::ir_block`, with the `needScope` flag passed
explicitly (`ir_function_define` clears it on the body block before calling
the handler).  On a child's failure the handler returns without leaving the
scope it entered. -/
def ir_block_core (v : Visitor) (st : GenState) (n : AstNode) (useScope : Bool) : Option VRes :=
  let st1 := if useScope then { st with mod := enterScope st.mod } else st
  match visitSeq v st1 n.sons with
  | none => none
  | some (ok, st2, insts) =>
      if ok then
        let st3 := if useScope then { st2 with mod := leaveScope st2.mod } else st2
        some { ok := true, st := st3, insts := insts, val := none }
      else
        some { ok := false, st := st2, insts := insts, val := none }

/-- `IRGenerator::ir_block`. -/
def ir_block (v : Visitor) (st : GenState) (n : AstNode) : Option VRes :=
  ir_block_core v st n n.needScope

/-- `IRGenerator::ir_if` — generates the three labels, visits the condition
and branch children **ignoring their results** (a failing child does not make
the IF fail), and emits: cond, `BF cond Lfalse`, `Ltrue`, then-branch,
`Goto Lend`, `Lfalse`, optional else-branch, `Goto Lend`, `Lend`. -/
def ir_if (v : Visitor) (st : GenState) (n : AstNode) : Option VRes :=
  match st.mod.curFunc with
  | none => some { ok := false, st := st, insts := [], val := none }
  | some _ =>
      match n.sons with
      | condN :: thenN :: rest =>
          let (tl, st1) := genLabel st
          let (fl, st2) := genLabel st1
          let (el, st3) := genLabel st2
          match v st3 condN with
          | none => none
          | some rc =>
              match v rc.st thenN with
              | none => none
              | some rt =>
                  let insts1 := rc.insts ++ [Instr.bf rc.val fl, Instr.label tl] ++
                    rt.insts ++ [Instr.goto el, Instr.label fl]
                  match rest with
                  | elseN :: _ =>
                      match v rt.st elseN with
                      | none => none
                      | some re =>
                          some { ok := true, st := re.st,
                                 insts := insts1 ++ re.insts ++ [Instr.goto el, Instr.label el],
                                 val := none }
                  | [] =>
                      some { ok := true, st := rt.st,
                             insts := insts1 ++ [Instr.goto el, Instr.label el],
                             val := none }
      | _ => none

/-- `IRGenerator::ir_while` — generates entry/body/exit labels, pushes the
loop context (before even the condition is visited), emits `Lentry`, cond,
`BT cond Lbody`, `Lexit`, `Lbody`, body, `Goto Lentry`, then pops the loop
context.  The condition's and body's visit results are ignored. -/
def ir_while (v : Visitor) (st : GenState) (n : AstNode) : Option VRes :=
  match st.mod.curFunc with
  | none => some { ok := false, st := st, insts := [], val := none }
  | some _ =>
      match n.sons with
      | condN :: bodyN :: _ =>
          let (le, st1) := genLabel st
          let (lb, st2) := genLabel st1
          let (lx, st3) := genLabel st2
          let st4 := { st3 with loopCtx := (le, lb, lx) :: st3.loopCtx }
          match v st4 condN with
          | none => none
          | some rc =>
              match v rc.st bodyN with
              | none => none
              | some rb =>
                  let st5 := { rb.st with loopCtx := rb.st.loopCtx.tail }
                  some { ok := true, st := st5,
                         insts := [Instr.label le] ++ rc.insts ++
                           [Instr.bt rc.val lb, Instr.label lx, Instr.label lb] ++
                           rb.insts ++ [Instr.goto le],
                         val := none }
      | _ => none

/-- `IRGenerator::ir_break` — fails without a current function or outside a
loop; otherwise emits a `Goto` to the innermost loop's exit label (the source
allocates a *fresh* `LabelInstruction` carrying that name as the target). -/
def ir_break (st : GenState) (_n : AstNode) : Option VRes :=
  match st.mod.curFunc, st.loopCtx with
  | some _, (_, _, lx) :: _ =>
      some { ok := true, st := st, insts := [Instr.goto lx], val := none }
  | _, _ => some { ok := false, st := st, insts := [], val := none }

/-- `IRGenerator::ir_continue` — like `ir_break`, targeting the innermost
loop's entry label. -/
def ir_continue (st : GenState) (_n : AstNode) : Option VRes :=
  match st.mod.curFunc, st.loopCtx with
  | some _, (le, _, _) :: _ =>
      some { ok := true, st := st, insts := [Instr.goto le], val := none }
  | _, _ => some { ok := false, st := st, insts := [], val := none }

/-- `IRGenerator::ir_function_formal_params` — a stub in the source
("TODO 目前形参还不支持"): emits nothing, creates nothing, returns true. -/
def ir_function_formal_params (_v : Visitor) (st : GenState) (_n : AstNode) : Option VRes :=
  some { ok := true, st := st, insts := [], val := none }

/-- Marks the current function as containing a call
(`currentFunc->setExistFuncCall(true)`). -/
def markCall (st : GenState) (cf : String) : GenState :=
  { st with mod := updateFunc st.mod cf (fun g => { g with existFuncCall := true }) }

/-- Raises the current function's `maxFuncCallArgCnt` to `argc` when larger. -/
def raiseMax (st : GenState) (cf : String) (argc : Int) : GenState :=
  { st with mod := updateFunc st.mod cf (fun g =>
      if argc > g.maxFuncCallArgCnt then { g with maxFuncCallArgCnt := argc } else g) }

/-- The tail of `ir_function_call` after the arguments: arity check, then one
`FuncCall` instruction which becomes the node's value. -/
def mkCall (st : GenState) (fname : String) (vals : List (Option Value))
    (argInsts : List Instr) (callee : IRFunction) : Option VRes :=
  if vals.length ≠ callee.params.length then
    some { ok := false, st := st, insts := argInsts, val := none }
  else
    let (id, st2) := genInstId st
    some { ok := true, st := st2,
           insts := argInsts ++ [Instr.funcCall id fname vals callee.retTy],
           val := some (Value.instrRef id) }

/-- `IRGenerator::ir_function_call` — look the callee up (fail if absent),
mark the current function as calling (dereferencing the current function),
raise the max-argument statistic when there are arguments, visit the
arguments left-to-right, check the arity, and emit one `FuncCall`. -/
def ir_function_call (v : Visitor) (st : GenState) (n : AstNode) : Option VRes :=
  match n.sons with
  | nameN :: paramsN :: _ =>
      match lookupFunc st.mod nameN.name with
      | none => some { ok := false, st := st, insts := [], val := none }
      | some callee =>
          match st.mod.curFunc with
          | none => none
          | some cf =>
              let st1 := markCall st cf
              match paramsN.sons with
              | [] => mkCall st1 nameN.name [] [] callee
              | _ =>
                  let st2 := raiseMax st1 cf (paramsN.sons.length : Int)
                  match visitArgs v st2 paramsN.sons with
                  | none => none
                  | some (ok, st3, argInsts, vals) =>
                      if ok then mkCall st3 nameN.name vals argInsts callee
                      else some { ok := false, st := st3, insts := argInsts, val := none }
  | _ => none

/-- `IRGenerator::ir_variable_declare` — `[type, name]` children; declares a
fresh local bound to the name in the current scope; the new value becomes the
node's value; no instructions. -/
def ir_variable_declare (st : GenState) (n : AstNode) : Option VRes :=
  match n.sons with
  | tyN :: nameN :: _ =>
      let (val, mod2) := newVarValueNamed st.mod tyN.ty nameN.name
      some { ok := true, st := { st with mod := mod2 }, insts := [], val := some val }
  | _ => none

/-- The loop of `IRGenerator::ir_declare_statment`: `result` starts `false`;
each child is declared via a *direct* call to `ir_variable_declare`; the loop
breaks on failure and the last `result` is returned — so an empty child list
yields `false`. -/
def declLoop : GenState → List AstNode → Option (Bool × GenState)
  | st, [] => some (false, st)
  | st, c :: rest => do
      let r ← ir_variable_declare st c
      if r.ok then
        match rest with
        | [] => some (true, r.st)
        | _ => declLoop r.st rest
      else
        some (false, r.st)

/-- `IRGenerator::ir_declare_statment`. -/
def ir_declare_statment (st : GenState) (n : AstNode) : Option VRes :=
  match declLoop st n.sons with
  | none => none
  | some (ok, st2) => some { ok := ok, st := st2, insts := [], val := none }

/-- `IRGenerator::ir_function_define` — fails on nested definition or name
clash; creates the function, makes it current, enters a scope, appends
`Entry`, creates the exit label (a default-constructed `LabelInstruction`;
modelled from the spec's single label counter, since `LabelInstruction.cpp`
is not under `src/`), runs the (stub) formal-parameter handler, allocates the
return-value local for non-void functions, visits the body with its scope
flag cleared, then appends the body's instructions, the exit label and
`Exit(returnValue)`, clears the current function and leaves the scope.  The
failure paths after entering the scope return *without* restoring the current
function or leaving the scope. -/
def ir_function_define (v : Visitor) (st : GenState) (n : AstNode) : Option VRes :=
  match st.mod.curFunc with
  | some _ => some { ok := false, st := st, insts := [], val := none }
  | none =>
      match n.sons with
      | tyN :: nameN :: paramN :: blockN :: _ =>
          match newFunction st.mod nameN.name tyN.ty with
          | none => some { ok := false, st := st, insts := [], val := none }
          | some mod1 =>
              let mod2 := { mod1 with curFunc := some nameN.name }
              let mod3 := enterScope mod2
              let mod4 := appendToFunc mod3 nameN.name [Instr.entry]
              let (exitName, st1) := genLabel { st with mod := mod4 }
              let modE := updateFunc st1.mod nameN.name (fun g => { g with exitLabel := some exitName })
              let st2 := { st1 with mod := modE }
              match ir_function_formal_params v st2 paramN with
              | none => none
              | some pr =>
                  if pr.ok then
                    let (rv, st3) :=
                      if tyN.ty = Ty.tvoid then ((none : Option Value), pr.st)
                      else
                        let (val, mod5) := newVarValueTmp pr.st.mod tyN.ty
                        (some val, { pr.st with mod := mod5 })
                    let modR := updateFunc st3.mod nameN.name (fun g => { g with retValue := rv })
                    let st4 := { st3 with mod := modR }
                    match ir_block_core v st4 blockN false with
                    | none => none
                    | some br =>
                        if br.ok then
                          let insts := pr.insts ++ br.insts
                          let modF := appendToFunc br.st.mod nameN.name
                            (insts ++ [Instr.label exitName, Instr.exit rv])
                          let st5 := { br.st with mod := modF }
                          let st6 := { st5 with mod := { st5.mod with curFunc := none } }
                          let st7 := { st6 with mod := leaveScope st6.mod }
                          some { ok := true, st := st7, insts := insts, val := none }
                        else
                          some { ok := false, st := br.st, insts := pr.insts, val := none }
                  else
                    some { ok := false, st := pr.st, insts := [], val := none }
      | _ => none

/-- `IRGenerator::ir_compile_unit` — clears the current function, then visits
each child, aborting on the first failure; splices nothing. -/
def ir_compile_unit (v : Visitor) (st : GenState) (n : AstNode) : Option VRes :=
  let st1 := { st with mod := { st.mod with curFunc := none } }
  match visitAll v st1 n.sons with
  | none => none
  | some (ok, st2) => some { ok := ok, st := st2, insts := [], val := none }

/-- The dispatch table of the `IRGenerator` constructor: tag to handler. -/
def stepCore (v : Visitor) (st : GenState) (n : AstNode) : Option VRes :=
  match n.op with
  | .LeafLitUint => ir_leaf_node_uint st n
  | .LeafVarId => ir_leaf_node_var_id st n
  | .LeafType => ir_leaf_node_type st n
  | .Sub => ir_sub v st n
  | .Add => ir_add v st n
  | .Mul => ir_mul v st n
  | .Div => ir_div v st n
  | .Mod => ir_mod v st n
  | .Neg => ir_neg v st n
  | .And => ir_and v st n
  | .Or => ir_or v st n
  | .Not => ir_not v st n
  | .Eq => ir_eq v st n
  | .Ne => ir_ne v st n
  | .Lt => ir_lt v st n
  | .Le => ir_le v st n
  | .Gt => ir_gt v st n
  | .Ge => ir_ge v st n
  | .Assign => ir_assign v st n
  | .Return => ir_return v st n
  | .If => ir_if v st n
  | .While => ir_while v st n
  | .Break => ir_break st n
  | .Continue => ir_continue st n
  | .FuncCall => ir_function_call v st n
  | .FuncDef => ir_function_define v st n
  | .FuncFormalParams => ir_function_formal_params v st n
  | .DeclStmt => ir_declare_statment st n
  | .VarDecl => ir_variable_declare st n
  | .Block => ir_block v st n
  | .CompileUnit => ir_compile_unit v st n

/-- `IRGenerator::ir_visit_ast_node`: dispatch, then (ghost) record in
`anyFail` whether the handler reported failure. -/
def visitStep (v : Visitor) (st : GenState) (n : AstNode) : Option VRes :=
  match stepCore v st n with
  | none => none
  | some r =>
      if r.ok then some r
      else some { r with st := { r.st with anyFail := true } }

/-- The recursive visitor, structurally recursive on a fuel bound (the C++
recursion always terminates on finite trees; `none` means the bound was hit,
or an undefined dereference occurred somewhere). -/
def visit : Nat → GenState → AstNode → Option VRes
  | 0, _, _ => none
  | fuel + 1, st, n => visitStep (visit fuel) st n

/-- `IRGenerator::run` — visit the root; the translation succeeded iff the
returned node is non-null.  The pair is (run's boolean result, final state). -/
def run (fuel : Nat) (st : GenState) (root : AstNode) : Option (Bool × GenState) :=
  (visit fuel st root).map fun r => (r.ok, r.st)

/-- The initial state: empty registry, one (global) scope frame, counters at
zero, no current function, empty loop-context stack. -/
def initState : GenState :=
  { mod := { funcs := [], scopes := [[]], varCnt := 0, curFunc := none },
    labelCnt := 0, instCnt := 0, loopCtx := [], anyFail := false }

/-! ## Label bookkeeping (the spec's label-uniqueness invariant) -/

/-- How many times the name `l` is emitted as a `Label` instruction. -/
def labelCount (code : List Instr) (l : String) : Nat :=
  code.countP fun i => i == Instr.label l

/-- The names of the labels emitted in a code sequence, in order. -/
def labelNames (code : List Instr) : List String :=
  code.foldr (fun i acc => match i with | .label l => l :: acc | _ => acc) []

/-- All label names referenced as targets by Branch (BT/BF/BC) and Goto
instructions of a code sequence. -/
def branchTargets (code : List Instr) : List String :=
  code.foldr
    (fun i acc =>
      match i with
      | .bt _ t => t :: acc
      | .bf _ t => t :: acc
      | .bc _ t f => t :: f :: acc
      | .goto t => t :: acc
      | _ => acc) []

/-- The label invariant claimed by the spec for a produced function: every
emitted label name occurs as a `Label` instruction exactly once, and every
branch/goto target is a label emitted in the same sequence. -/
def labelInvariant (code : List Instr) : Bool :=
  ((labelNames code).all fun l => labelCount code l == 1) &&
  ((branchTargets code).all fun t => labelCount code t != 0)

/-- The `InterCode` of the function registered under `nm` after a run
(empty when the run produced no result or the function is absent). -/
def funcCodeOf (o : Option VRes) (nm : String) : List Instr :=
  match o with
  | none => []
  | some r =>
      match lookupFunc r.st.mod nm with
      | none => []
      | some f => f.interCode

/-! ## Concrete test programs -/

/-- A `LEAF_TYPE` node carrying a type. -/
def leafTy (t : Ty) : AstNode :=
  .mk .LeafType [] 0 "" t true

/-- A name-bearing leaf (used as the name child of definitions and calls). -/
def nameLeaf (nm : String) : AstNode :=
  .mk .LeafVarId [] 0 nm .tint true

/-- An unsigned integer literal leaf. -/
def lit (v : Int) : AstNode :=
  .mk .LeafLitUint [] v "" .tint true

/-- A block node (fresh blocks from the parser have `needScope` set). -/
def blk (ss : List AstNode) : AstNode :=
  .mk .Block ss 0 "" .tint true

/-- An empty formal-parameter list node. -/
def formals (ss : List AstNode) : AstNode :=
  .mk .FuncFormalParams ss 0 "" .tint true

/-- A `FUNC_DEF` node: `[return type, name, formals, body]`. -/
def funcDefN (t : Ty) (nm : String) (body : List AstNode) : AstNode :=
  .mk .FuncDef [leafTy t, nameLeaf nm, formals [], blk body] 0 "" t true

/-- A compile-unit root. -/
def compileUnit (ss : List AstNode) : AstNode :=
  .mk .CompileUnit ss 0 "" .tint true

def breakNode : AstNode :=
  .mk .Break [] 0 "" .tint true

/-- `int main() { 1 && 1; }` — exercises the short-circuit AND lowering. -/
def progAnd : AstNode :=
  compileUnit [funcDefN .tint "main" [.mk .And [lit 1, lit 1] 0 "" .tint true]]

/-- `int main() { if (1) break; }` — a failing child (break outside any
loop) under an IF. -/
def progIfBreak : AstNode :=
  compileUnit [funcDefN .tint "main" [.mk .If [lit 1, breakNode] 0 "" .tint true]]

/-- `int main() { break; }` — a failing statement directly in the body. -/
def progBreak : AstNode :=
  compileUnit [funcDefN .tint "main" [breakNode]]

/-- An empty translation unit. -/
def progEmpty : AstNode :=
  compileUnit []

/-! ## State invariants of the traversal -/

/-- Relates a function's record before and after a traversal step: a function
already registered stays registered with the same immutable fields; only the
two call-statistics fields may move, monotonically. -/
def funcsMono (m m' : ModuleState) : Prop :=
  ∀ nm g, lookupFunc m nm = some g →
    ∃ g', lookupFunc m' nm = some g' ∧
      g'.name = g.name ∧ g'.retTy = g.retTy ∧ g'.params = g.params ∧
      g'.interCode = g.interCode ∧ g'.exitLabel = g.exitLabel ∧
      g'.retValue = g.retValue ∧
      (g.existFuncCall = true → g'.existFuncCall = true) ∧
      g.maxFuncCallArgCnt ≤ g'.maxFuncCallArgCnt

/-- The current-function slot either survives a step or has been reset to
null (only `ir_compile_unit` and `ir_function_define` reset it). -/
def curOk (a b : Option String) : Prop :=
  b = a ∨ b = none

/-- Unconditional facts about any visit `st → st'`: the ghost failure flag
only ever rises, the loop-context stack is restored, and the function
registry evolves monotonically. -/
def pres (st st' : GenState) : Prop :=
  (st.anyFail = true → st'.anyFail = true) ∧
  st'.loopCtx = st.loopCtx ∧
  funcsMono st.mod st'.mod

/-- The scope-hygiene facts that hold for a *failure-free* successful visit:
the scope stack has exactly as many frames as before, and the
current-function slot survives or is null. -/
def scopeOk (st : GenState) (r : VRes) : Prop :=
  r.st.mod.scopes.length = st.mod.scopes.length ∧
  curOk st.mod.curFunc r.st.mod.curFunc

/-- Everything the induction carries about one visit. -/
def good (st : GenState) (r : VRes) : Prop :=
  pres st r.st ∧ (r.ok = true → r.st.anyFail = false → scopeOk st r)

/-- A visitor all of whose defined results are `good`, and which records
every reported failure in the ghost flag. -/
def goodV (v : Visitor) : Prop :=
  ∀ s n r, v s n = some r → good s r ∧ (r.ok = false → r.st.anyFail = true)

/-- A `FUNC_FORMAL_PARAMS` node with one formal (exercises the stub). -/
def paramOneFormal : AstNode :=
  formals [.mk .VarDecl [leafTy .tint, nameLeaf "x"] 0 "" .tint true]

/-- A module state whose registry holds one function `f` with one formal
parameter, and where `f` is the current function (as while translating `f`'s
own body); used to exercise `ir_function_call` in isolation. -/
def stWithF : GenState :=
  { initState with mod := { initState.mod with
      funcs := [{ name := "f", retTy := Ty.tint, params := [Ty.tint], interCode := [],
                  exitLabel := none, retValue := none, existFuncCall := false,
                  maxFuncCallArgCnt := 0 }],
      curFunc := some "f" } }

/-- `f()` — a call with no arguments. -/
def call0Node : AstNode :=
  .mk .FuncCall [nameLeaf "f", formals []] 0 "" .tint true

/-- `f(1, 2)` — a call with two arguments. -/
def call2Node : AstNode :=
  .mk .FuncCall [nameLeaf "f", formals [lit 1, lit 2]] 0 "" .tint true

instance : Inhabited VRes :=
  ⟨{ ok := false, st := initState, insts := [], val := none }⟩

/-- The result of running the empty translation unit. -/
def runEmptyRes : VRes :=
  (visit 2 initState progEmpty).getD default

/-- The result of translating `int f0() {}` in the initial state. -/
def demoDefRes : VRes :=
  (ir_function_define (visit 4) initState (funcDefN Ty.tint "f0" [])).getD default

/-- A state as in the middle of translating a function body: `f0` registered
and current. -/
def stInFunc : GenState :=
  { initState with mod := { initState.mod with
      funcs := [mkFunc "f0" Ty.tint], scopes := [[], []], curFunc := some "f0" } }

/-- `while (1) {}`. -/
def whileNode : AstNode :=
  .mk .While [lit 1, blk []] 0 "" .tint true

/-- The result of translating `while (1) {}` in `stInFunc`. -/
def whileRes : VRes :=
  (ir_while (visit 8) stInFunc whileNode).getD default

/-- `x = 1` (with `x` unbound: the variable leaf still succeeds). -/
def assignNode : AstNode :=
  .mk .Assign [nameLeaf "x", lit 1] 0 "" .tint true

/-- The result of translating `x = 1` in the initial state. -/
def assignRes : VRes :=
  (ir_assign (visit 4) initState assignNode).getD default

/-- The result of `f(1, 2)` while `f` (one formal) is current: an arity
mismatch. -/
def call2Res : VRes :=
  (ir_function_call (visit 4) stWithF call2Node).getD default

/-- `int x; int y;` — a declaration statement with two variables. -/
def declNode : AstNode :=
  .mk .DeclStmt [.mk .VarDecl [leafTy .tint, nameLeaf "x"] 0 "" .tint true,
    .mk .VarDecl [leafTy .tint, nameLeaf "y"] 0 "" .tint true] 0 "" .tint true

/-- The result of translating `int x; int y;` in the initial state. -/
def declRes : VRes :=
  (ir_declare_statment initState declNode).getD default

/-- The registry record of `f` as registered in `stWithF`. -/
def fRec : IRFunction :=
  { name := "f", retTy := Ty.tint, params := [Ty.tint], interCode := [],
    exitLabel := none, retValue := none, existFuncCall := false,
    maxFuncCallArgCnt := 0 }

/-- The state reached after `f(1, 2)`'s pre-arity mutations: `existFuncCall`
set and `maxFuncCallArgCnt` raised to 2. -/
def stF2 : GenState :=
  { initState with mod := { initState.mod with
      funcs := [{ name := "f", retTy := Ty.tint, params := [Ty.tint], interCode := [],
                  exitLabel := none, retValue := none, existFuncCall := true,
                  maxFuncCallArgCnt := 2 }],
      curFunc := some "f" } }


/-- The visit result of the LHS leaf `x` of `assignNode` (unbound: ok with a
null value). -/
def rlW : VRes :=
  (visit 4 initState (nameLeaf "x")).getD default

/-- The visit result of the RHS literal of `assignNode`. -/
def rrW : VRes :=
  (visit 4 rlW.st (lit 1)).getD default

/-- The label triple `(entry, body, exit)` that `ir_while` generates from the
label counter of the state it starts in. -/
def loopTriple (st : GenState) : String × String × String :=
  (mkLabel st.labelCnt, mkLabel (st.labelCnt + 1), mkLabel (st.labelCnt + 1 + 1))

/-- The state in which `ir_while` visits the condition: three labels
generated and the loop triple pushed onto the loop-context stack. -/
def whileSetup (st : GenState) : GenState :=
  { st with
    labelCnt := st.labelCnt + 1 + 1 + 1,
    loopCtx := loopTriple st :: st.loopCtx }

theorem funcsMono_refl (m : ModuleState) : funcsMono m m := by
  intro nm g h
  exact ⟨g, h, rfl, rfl, rfl, rfl, rfl, rfl, fun hh => hh, le_refl _⟩

theorem funcsMono_trans {a b c : ModuleState} (h1 : funcsMono a b) (h2 : funcsMono b c) :
    funcsMono a c := by
  intro nm g hg
  obtain ⟨g1, hl1, hn1, ht1, hp1, hi1, he1, hr1, hf1, hm1⟩ := h1 nm g hg
  obtain ⟨g2, hl2, hn2, ht2, hp2, hi2, he2, hr2, hf2, hm2⟩ := h2 nm g1 hl1
  exact ⟨g2, hl2, by rw [hn2, hn1], by rw [ht2, ht1], by rw [hp2, hp1], by rw [hi2, hi1],
    by rw [he2, he1], by rw [hr2, hr1], fun hh => hf2 (hf1 hh), le_trans hm1 hm2⟩

theorem lookupFunc_congr {m m' : ModuleState} (h : m'.funcs = m.funcs) (nm : String) :
    lookupFunc m' nm = lookupFunc m nm := by
  unfold lookupFunc
  rw [h]

theorem funcsMono_of_funcs_eq {m m' : ModuleState} (h : m'.funcs = m.funcs) :
    funcsMono m m' := by
  intro nm g hg
  refine ⟨g, ?_, rfl, rfl, rfl, rfl, rfl, rfl, fun hh => hh, le_refl _⟩
  rw [lookupFunc_congr h, hg]

theorem curOk_refl (a : Option String) : curOk a a := Or.inl rfl

theorem curOk_trans {a b c : Option String} (h1 : curOk a b) (h2 : curOk b c) : curOk a c := by
  rcases h2 with h2 | h2
  · rcases h1 with h1 | h1
    · exact Or.inl (h2.trans h1)
    · exact Or.inr (h2.trans h1)
  · exact Or.inr h2

theorem pres_refl (st : GenState) : pres st st :=
  ⟨fun h => h, rfl, funcsMono_refl _⟩

theorem pres_trans {a b c : GenState} (h1 : pres a b) (h2 : pres b c) : pres a c :=
  ⟨fun h => h2.1 (h1.1 h), h2.2.1.trans h1.2.1, funcsMono_trans h1.2.2 h2.2.2⟩

theorem pres_of_parts {st st' : GenState} (hA : st'.anyFail = st.anyFail)
    (hL : st'.loopCtx = st.loopCtx) (hF : st'.mod.funcs = st.mod.funcs) : pres st st' :=
  ⟨fun h => by rw [hA, h], hL, funcsMono_of_funcs_eq hF⟩

theorem find?_ite_map (l : List IRFunction) (t nm : String) (f : IRFunction → IRFunction)
    (hf : ∀ g, (f g).name = g.name) :
    (l.map fun g => if g.name == t then f g else g).find? (fun g => g.name == nm) =
      (l.find? fun g => g.name == nm).map fun g => if g.name == t then f g else g := by
  induction l with
  | nil => rfl
  | cons g gs ih =>
      simp only [List.map_cons, List.find?_cons]
      have h1 : ((if (g.name == t) = true then f g else g).name == nm) = (g.name == nm) := by
        split <;> simp [hf]
      rw [h1]
      cases h : g.name == nm with
      | true => rfl
      | false => simpa using ih

theorem lookupFunc_updateFunc (m : ModuleState) (t : String) (f : IRFunction → IRFunction)
    (hf : ∀ g, (f g).name = g.name) (nm : String) :
    lookupFunc (updateFunc m t f) nm =
      (lookupFunc m nm).map fun g => if g.name == t then f g else g :=
  find?_ite_map m.funcs t nm f hf

theorem lookupFunc_name {m : ModuleState} {nm : String} {g : IRFunction}
    (h : lookupFunc m nm = some g) : g.name = nm := by
  unfold lookupFunc at h
  simpa using List.find?_some h

theorem lookupFunc_updateFunc_ne {m : ModuleState} {nm : String} {g : IRFunction}
    (t : String) (f : IRFunction → IRFunction) (hf : ∀ g, (f g).name = g.name)
    (h : lookupFunc m nm = some g) (hne : g.name ≠ t) :
    lookupFunc (updateFunc m t f) nm = some g := by
  rw [lookupFunc_updateFunc m t f hf nm, h]
  simp [hne]

theorem lookupFunc_updateFunc_self {m : ModuleState} {t : String} {g : IRFunction}
    (f : IRFunction → IRFunction) (hf : ∀ g, (f g).name = g.name)
    (h : lookupFunc m t = some g) :
    lookupFunc (updateFunc m t f) t = some (f g) := by
  rw [lookupFunc_updateFunc m t f hf t, h]
  simp [lookupFunc_name h]

theorem lookupFunc_append_old {m : ModuleState} {nm : String} {g : IRFunction}
    (h : lookupFunc m nm = some g) (newf : IRFunction) :
    lookupFunc { m with funcs := m.funcs ++ [newf] } nm = some g := by
  unfold lookupFunc at h ⊢
  rw [List.find?_append, h]
  rfl

theorem lookupFunc_append_new {m : ModuleState} {nm : String}
    (h : lookupFunc m nm = none) (newf : IRFunction) (hname : newf.name = nm) :
    lookupFunc { m with funcs := m.funcs ++ [newf] } nm = some newf := by
  unfold lookupFunc at h ⊢
  rw [List.find?_append, h]
  simp [List.find?, hname]

theorem newFunction_some {m m' : ModuleState} {nm : String} {ty : Ty}
    (h : newFunction m nm ty = some m') :
    lookupFunc m nm = none ∧ m' = { m with funcs := m.funcs ++ [mkFunc nm ty] } := by
  unfold newFunction at h
  cases hl : lookupFunc m nm with
  | some g => rw [hl] at h; cases h
  | none => rw [hl] at h; exact ⟨rfl, (Option.some_injective _ h).symm⟩

theorem funcsMono_newFunction {m m' : ModuleState} {nm : String} {ty : Ty}
    (h : newFunction m nm ty = some m') : funcsMono m m' := by
  obtain ⟨-, rfl⟩ := newFunction_some h
  intro n g hg
  exact ⟨g, lookupFunc_append_old hg _, rfl, rfl, rfl, rfl, rfl, rfl, fun hh => hh, le_refl _⟩

theorem funcsMono_updateFunc (m : ModuleState) (t : String) (f : IRFunction → IRFunction)
    (hf : ∀ g, (f g).name = g.name ∧ (f g).retTy = g.retTy ∧ (f g).params = g.params ∧
      (f g).interCode = g.interCode ∧ (f g).exitLabel = g.exitLabel ∧
      (f g).retValue = g.retValue ∧
      (g.existFuncCall = true → (f g).existFuncCall = true) ∧
      g.maxFuncCallArgCnt ≤ (f g).maxFuncCallArgCnt) :
    funcsMono m (updateFunc m t f) := by
  intro nm g hg
  rw [lookupFunc_updateFunc m t f (fun g => (hf g).1) nm, hg]
  by_cases hcase : (g.name == t) = true
  · obtain ⟨h1, h2, h3, h4, h5, h6, h7, h8⟩ := hf g
    exact ⟨f g, by simp only [Option.map_some', if_pos hcase], h1, h2, h3, h4, h5, h6, h7, h8⟩
  · exact ⟨g, by simp only [Option.map_some', if_neg hcase], rfl, rfl, rfl, rfl, rfl, rfl,
      fun hh => hh, le_refl _⟩

theorem funcsMono_markCall (st : GenState) (cf : String) :
    funcsMono st.mod (markCall st cf).mod := by
  apply funcsMono_updateFunc
  intro g
  exact ⟨rfl, rfl, rfl, rfl, rfl, rfl, fun _ => rfl, le_refl _⟩

theorem funcsMono_raiseMax (st : GenState) (cf : String) (argc : Int) :
    funcsMono st.mod (raiseMax st cf argc).mod := by
  apply funcsMono_updateFunc
  intro g
  by_cases h : argc > g.maxFuncCallArgCnt
  · rw [if_pos h]
    exact ⟨rfl, rfl, rfl, rfl, rfl, rfl, fun hh => hh, le_of_lt h⟩
  · rw [if_neg h]
    exact ⟨rfl, rfl, rfl, rfl, rfl, rfl, fun hh => hh, le_refl _⟩

theorem good_of_st_eq {st : GenState} {r : VRes} (h : r.st = st) : good st r := by
  refine ⟨by rw [h]; exact pres_refl _, fun _ _ => ⟨by rw [h], by rw [h]; exact curOk_refl _⟩⟩

theorem anyFail_false_of_pres {st st' : GenState} (h : pres st st')
    (hf : st'.anyFail = false) : st.anyFail = false := by
  cases hb : st.anyFail with
  | false => rfl
  | true => rw [h.1 hb] at hf; cases hf


theorem bindVar_facts (m : ModuleState) (nm : String) (v : Value) :
    (bindVar m nm v).funcs = m.funcs ∧ (bindVar m nm v).curFunc = m.curFunc ∧
      (bindVar m nm v).scopes.length = m.scopes.length := by
  cases hs : m.scopes with
  | nil => simp [bindVar, hs]
  | cons s rest => simp [bindVar, hs]

theorem ir_variable_declare_parts {st : GenState} {n : AstNode} {r : VRes}
    (h : ir_variable_declare st n = some r) :
    r.st.mod.funcs = st.mod.funcs ∧ r.st.mod.curFunc = st.mod.curFunc ∧
      r.st.mod.scopes.length = st.mod.scopes.length ∧
      r.st.anyFail = st.anyFail ∧ r.st.loopCtx = st.loopCtx ∧ r.ok = true := by
  unfold ir_variable_declare at h
  cases hs : n.sons with
  | nil => rw [hs] at h; cases h
  | cons tyN rest =>
      cases rest with
      | nil => rw [hs] at h; cases h
      | cons nameN rest2 =>
          rw [hs] at h
          simp only [Option.some.injEq] at h
          obtain ⟨h1, h2, h3⟩ := bindVar_facts { st.mod with varCnt := st.mod.varCnt + 1 }
            nameN.name (Value.localVar st.mod.varCnt tyN.ty)
          subst h
          exact ⟨h1, h2, h3, rfl, rfl, rfl⟩

theorem declLoop_facts :
    ∀ (cs : List AstNode) (st : GenState) (ok : Bool) (st2 : GenState),
      declLoop st cs = some (ok, st2) →
      pres st st2 ∧ st2.mod.scopes.length = st.mod.scopes.length ∧
        st2.mod.curFunc = st.mod.curFunc ∧ st2.anyFail = st.anyFail := by
  intro cs
  induction cs with
  | nil =>
      intro st ok st2 h
      simp only [declLoop, Option.some.injEq, Prod.mk.injEq] at h
      obtain ⟨-, rfl⟩ := h
      exact ⟨pres_refl _, rfl, rfl, rfl⟩
  | cons c rest ih =>
      intro st ok st2 h
      cases hr : ir_variable_declare st c with
      | none => simp only [declLoop, hr, Option.bind_eq_bind, Option.none_bind] at h; exact Option.noConfusion h
      | some r =>
          simp only [declLoop, hr, Option.bind_eq_bind, Option.some_bind] at h
          obtain ⟨h1, h2, h3, h4, h5, h6⟩ := ir_variable_declare_parts hr
          have hp : pres st r.st := pres_of_parts h4 h5 h1
          rw [h6, if_pos rfl] at h
          cases rest with
          | nil =>
              simp only [Option.some.injEq, Prod.mk.injEq] at h
              obtain ⟨-, rfl⟩ := h
              exact ⟨hp, h3, h2, h4⟩
          | cons c2 rest2 =>
              obtain ⟨hp2, hl2, hc2, ha2⟩ := ih r.st ok st2 h
              exact ⟨pres_trans hp hp2, hl2.trans h3, hc2.trans h2, ha2.trans h4⟩

theorem visitSeq_good (v : Visitor) (hv : goodV v) :
    ∀ (sons : List AstNode) (st : GenState) (ok : Bool) (st2 : GenState) (insts : List Instr),
      visitSeq v st sons = some (ok, st2, insts) →
      pres st st2 ∧
      (ok = true → st2.anyFail = false →
        st2.mod.scopes.length = st.mod.scopes.length ∧ curOk st.mod.curFunc st2.mod.curFunc) ∧
      (ok = false → st2.anyFail = true) := by
  intro sons
  induction sons with
  | nil =>
      intro st ok st2 insts h
      simp only [visitSeq, Option.some.injEq, Prod.mk.injEq] at h
      obtain ⟨rfl, rfl, -⟩ := h
      exact ⟨pres_refl _, fun _ _ => ⟨rfl, curOk_refl _⟩, fun hc => nomatch hc⟩
  | cons n rest ih =>
      intro st ok st2 insts h
      cases hr : v st n with
      | none => simp only [visitSeq, hr, Option.bind_eq_bind, Option.none_bind] at h; exact Option.noConfusion h
      | some r =>
          simp only [visitSeq, hr, Option.bind_eq_bind, Option.some_bind] at h
          obtain ⟨⟨hpr, hsr⟩, hfr⟩ := hv st n r hr
          cases hok : r.ok with
          | false =>
              rw [hok] at h
              simp only [Bool.false_eq_true, if_false, Option.some.injEq, Prod.mk.injEq] at h
              obtain ⟨rfl, rfl, -⟩ := h
              exact ⟨hpr, fun hc => absurd hc Bool.false_ne_true, fun _ => hfr hok⟩
          | true =>
              rw [hok, if_pos rfl] at h
              cases hrec : visitSeq v r.st rest with
              | none => rw [hrec] at h; cases h
              | some res =>
                  obtain ⟨ok2, st3, insts2⟩ := res
                  rw [hrec] at h
                  simp only [Option.some_bind, Option.some.injEq, Prod.mk.injEq] at h
                  obtain ⟨rfl, rfl, -⟩ := h
                  obtain ⟨hp2, hs2, hf2⟩ := ih r.st ok2 st3 insts2 hrec
                  refine ⟨pres_trans hpr hp2, ?_, hf2⟩
                  intro hok2 hfa
                  have hfa1 : r.st.anyFail = false := anyFail_false_of_pres hp2 hfa
                  obtain ⟨hl1, hc1⟩ := hsr hok hfa1
                  obtain ⟨hl2, hc2⟩ := hs2 hok2 hfa
                  exact ⟨hl2.trans hl1, curOk_trans hc1 hc2⟩

theorem visitAll_good (v : Visitor) (hv : goodV v) :
    ∀ (sons : List AstNode) (st : GenState) (ok : Bool) (st2 : GenState),
      visitAll v st sons = some (ok, st2) →
      pres st st2 ∧
      (ok = true → st2.anyFail = false →
        st2.mod.scopes.length = st.mod.scopes.length ∧ curOk st.mod.curFunc st2.mod.curFunc) ∧
      (ok = false → st2.anyFail = true) := by
  intro sons
  induction sons with
  | nil =>
      intro st ok st2 h
      simp only [visitAll, Option.some.injEq, Prod.mk.injEq] at h
      obtain ⟨rfl, rfl⟩ := h
      exact ⟨pres_refl _, fun _ _ => ⟨rfl, curOk_refl _⟩, fun hc => nomatch hc⟩
  | cons n rest ih =>
      intro st ok st2 h
      cases hr : v st n with
      | none => simp only [visitAll, hr, Option.bind_eq_bind, Option.none_bind] at h; exact Option.noConfusion h
      | some r =>
          simp only [visitAll, hr, Option.bind_eq_bind, Option.some_bind] at h
          obtain ⟨⟨hpr, hsr⟩, hfr⟩ := hv st n r hr
          cases hok : r.ok with
          | false =>
              rw [hok] at h
              simp only [Bool.false_eq_true, if_false, Option.some.injEq, Prod.mk.injEq] at h
              obtain ⟨rfl, rfl⟩ := h
              exact ⟨hpr, fun hc => absurd hc Bool.false_ne_true, fun _ => hfr hok⟩
          | true =>
              rw [hok, if_pos rfl] at h
              obtain ⟨hp2, hs2, hf2⟩ := ih r.st ok st2 h
              refine ⟨pres_trans hpr hp2, ?_, hf2⟩
              intro hok2 hfa
              have hfa1 : r.st.anyFail = false := anyFail_false_of_pres hp2 hfa
              obtain ⟨hl1, hc1⟩ := hsr hok hfa1
              obtain ⟨hl2, hc2⟩ := hs2 hok2 hfa
              exact ⟨hl2.trans hl1, curOk_trans hc1 hc2⟩

theorem visitArgs_good (v : Visitor) (hv : goodV v) :
    ∀ (sons : List AstNode) (st : GenState) (ok : Bool) (st2 : GenState)
      (insts : List Instr) (vals : List (Option Value)),
      visitArgs v st sons = some (ok, st2, insts, vals) →
      pres st st2 ∧
      (ok = true → st2.anyFail = false →
        st2.mod.scopes.length = st.mod.scopes.length ∧ curOk st.mod.curFunc st2.mod.curFunc) ∧
      (ok = false → st2.anyFail = true) := by
  intro sons
  induction sons with
  | nil =>
      intro st ok st2 insts vals h
      simp only [visitArgs, Option.some.injEq, Prod.mk.injEq] at h
      obtain ⟨rfl, rfl, -⟩ := h
      exact ⟨pres_refl _, fun _ _ => ⟨rfl, curOk_refl _⟩, fun hc => nomatch hc⟩
  | cons n rest ih =>
      intro st ok st2 insts vals h
      cases hr : v st n with
      | none => simp only [visitArgs, hr, Option.bind_eq_bind, Option.none_bind] at h; exact Option.noConfusion h
      | some r =>
          simp only [visitArgs, hr, Option.bind_eq_bind, Option.some_bind] at h
          obtain ⟨⟨hpr, hsr⟩, hfr⟩ := hv st n r hr
          cases hok : r.ok with
          | false =>
              rw [hok] at h
              simp only [Bool.false_eq_true, if_false, Option.some.injEq, Prod.mk.injEq] at h
              obtain ⟨rfl, rfl, -⟩ := h
              exact ⟨hpr, fun hc => absurd hc Bool.false_ne_true, fun _ => hfr hok⟩
          | true =>
              rw [hok, if_pos rfl] at h
              cases hrec : visitArgs v r.st rest with
              | none => rw [hrec] at h; cases h
              | some res =>
                  obtain ⟨ok2, st3, insts2, vals2⟩ := res
                  rw [hrec] at h
                  simp only [Option.some_bind, Option.some.injEq, Prod.mk.injEq] at h
                  obtain ⟨rfl, rfl, -⟩ := h
                  obtain ⟨hp2, hs2, hf2⟩ := ih r.st ok2 st3 insts2 vals2 hrec
                  refine ⟨pres_trans hpr hp2, ?_, hf2⟩
                  intro hok2 hfa
                  have hfa1 : r.st.anyFail = false := anyFail_false_of_pres hp2 hfa
                  obtain ⟨hl1, hc1⟩ := hsr hok hfa1
                  obtain ⟨hl2, hc2⟩ := hs2 hok2 hfa
                  exact ⟨hl2.trans hl1, curOk_trans hc1 hc2⟩

theorem ir_default_good {st : GenState} {n : AstNode} {r : VRes}
    (h : ir_default st n = some r) : good st r := by
  unfold ir_default at h
  simp only [Option.some.injEq] at h
  subst h
  exact good_of_st_eq rfl

theorem ir_leaf_node_uint_good {st : GenState} {n : AstNode} {r : VRes}
    (h : ir_leaf_node_uint st n = some r) : good st r := by
  unfold ir_leaf_node_uint at h
  simp only [Option.some.injEq] at h
  subst h
  exact good_of_st_eq rfl

theorem ir_leaf_node_var_id_good {st : GenState} {n : AstNode} {r : VRes}
    (h : ir_leaf_node_var_id st n = some r) : good st r := by
  unfold ir_leaf_node_var_id at h
  simp only [Option.some.injEq] at h
  subst h
  exact good_of_st_eq rfl

theorem ir_leaf_node_type_good {st : GenState} {n : AstNode} {r : VRes}
    (h : ir_leaf_node_type st n = some r) : good st r := by
  unfold ir_leaf_node_type at h
  simp only [Option.some.injEq] at h
  subst h
  exact good_of_st_eq rfl

theorem ir_function_formal_params_good {v : Visitor} {st : GenState} {n : AstNode} {r : VRes}
    (h : ir_function_formal_params v st n = some r) : good st r := by
  unfold ir_function_formal_params at h
  simp only [Option.some.injEq] at h
  subst h
  exact good_of_st_eq rfl

theorem ir_break_good {st : GenState} {n : AstNode} {r : VRes}
    (h : ir_break st n = some r) : good st r := by
  unfold ir_break at h
  split at h <;>
    · simp only [Option.some.injEq] at h
      subst h
      exact good_of_st_eq rfl

theorem ir_continue_good {st : GenState} {n : AstNode} {r : VRes}
    (h : ir_continue st n = some r) : good st r := by
  unfold ir_continue at h
  split at h <;>
    · simp only [Option.some.injEq] at h
      subst h
      exact good_of_st_eq rfl

theorem ir_variable_declare_good {st : GenState} {n : AstNode} {r : VRes}
    (h : ir_variable_declare st n = some r) : good st r := by
  obtain ⟨h1, h2, h3, h4, h5, h6⟩ := ir_variable_declare_parts h
  exact ⟨pres_of_parts h4 h5 h1, fun _ _ => ⟨h3, Or.inl h2⟩⟩

theorem ir_declare_statment_good {st : GenState} {n : AstNode} {r : VRes}
    (h : ir_declare_statment st n = some r) : good st r := by
  unfold ir_declare_statment at h
  cases hd : declLoop st n.sons with
  | none => rw [hd] at h; exact Option.noConfusion h
  | some res =>
      obtain ⟨ok, st2⟩ := res
      rw [hd] at h
      simp only [Option.some.injEq] at h
      subst h
      obtain ⟨hp, hl, hc, ha⟩ := declLoop_facts _ _ _ _ hd
      exact ⟨hp, fun _ _ => ⟨hl, Or.inl hc⟩⟩

theorem ir_not_good {v : Visitor} (hv : goodV v) {st : GenState} {n : AstNode} {r : VRes}
    (h : ir_not v st n = some r) : good st r := by
  unfold ir_not at h
  cases hcf : st.mod.curFunc with
  | none =>
      rw [hcf] at h
      simp only [Option.some.injEq] at h
      subst h
      exact good_of_st_eq rfl
  | some cf =>
      rw [hcf] at h
      cases hs : n.sons with
      | nil => simp only [hs] at h; exact Option.noConfusion h
      | cons son rest =>
          simp only [hs] at h
          cases hr : v st son with
          | none => rw [hr] at h; exact Option.noConfusion h
          | some rc =>
              rw [hr] at h
              simp only [Option.some.injEq] at h
              subst h
              obtain ⟨⟨hp, hsOk⟩, -⟩ := hv st son rc hr
              exact ⟨hp, fun hok hfa => hsOk hok hfa⟩

theorem ir_block_core_good {v : Visitor} (hv : goodV v) {st : GenState} {n : AstNode}
    {useScope : Bool} {r : VRes} (h : ir_block_core v st n useScope = some r) : good st r := by
  unfold ir_block_core at h
  cases useScope with
  | false =>
      simp only [Bool.false_eq_true, if_false] at h
      cases hseq : visitSeq v st n.sons with
      | none => rw [hseq] at h; exact Option.noConfusion h
      | some res =>
          obtain ⟨ok, st2, insts⟩ := res
          rw [hseq] at h
          obtain ⟨hp, hscope, -⟩ := visitSeq_good v hv _ _ _ _ _ hseq
          cases ok with
          | false =>
              simp only [Bool.false_eq_true, if_false, Option.some.injEq] at h
              subst h
              exact ⟨hp, fun hc => absurd hc Bool.false_ne_true⟩
          | true =>
              simp only [if_true, Option.some.injEq] at h
              subst h
              exact ⟨hp, fun _ hfa => hscope rfl hfa⟩
  | true =>
      simp only [if_true] at h
      cases hseq : visitSeq v { st with mod := enterScope st.mod } n.sons with
      | none => rw [hseq] at h; exact Option.noConfusion h
      | some res =>
          obtain ⟨ok, st2, insts⟩ := res
          rw [hseq] at h
          obtain ⟨hp, hscope, -⟩ := visitSeq_good v hv _ _ _ _ _ hseq
          have hp0 : pres st st2 := pres_trans (pres_of_parts rfl rfl rfl) hp
          cases ok with
          | false =>
              simp only [Bool.false_eq_true, if_false, Option.some.injEq] at h
              subst h
              exact ⟨hp0, fun hc => absurd hc Bool.false_ne_true⟩
          | true =>
              simp only [if_true, Option.some.injEq] at h
              subst h
              refine ⟨pres_trans hp0 (pres_of_parts rfl rfl rfl), ?_⟩
              intro _ hfa
              obtain ⟨hl, hc⟩ := hscope rfl hfa
              constructor
              · simp only [leaveScope, List.length_tail]
                rw [hl]
                simp [enterScope]
              · rcases hc with hc | hc
                · exact Or.inl hc
                · exact Or.inr hc

theorem ir_block_good {v : Visitor} (hv : goodV v) {st : GenState} {n : AstNode} {r : VRes}
    (h : ir_block v st n = some r) : good st r :=
  ir_block_core_good hv h

theorem ir_compile_unit_good {v : Visitor} (hv : goodV v) {st : GenState} {n : AstNode} {r : VRes}
    (h : ir_compile_unit v st n = some r) : good st r := by
  unfold ir_compile_unit at h
  simp only [] at h
  cases hall : visitAll v { st with mod := { st.mod with curFunc := none } } n.sons with
  | none => rw [hall] at h; exact Option.noConfusion h
  | some res =>
      obtain ⟨ok, st2⟩ := res
      rw [hall] at h
      simp only [Option.some.injEq] at h
      subst h
      obtain ⟨hp, hscope, -⟩ := visitAll_good v hv _ _ _ _ hall
      refine ⟨pres_trans (pres_of_parts rfl rfl rfl) hp, ?_⟩
      intro hok hfa
      obtain ⟨hl, hc⟩ := hscope hok hfa
      refine ⟨hl, ?_⟩
      rcases hc with hc | hc
      · exact Or.inr hc
      · exact Or.inr hc

theorem ir_arith_good {v : Visitor} (hv : goodV v) {st : GenState} {n : AstNode} {op : BinOp}
    {r : VRes} (h : ir_arith v st n op = some r) : good st r := by
  unfold ir_arith at h
  cases hs : n.sons with
  | nil => rw [hs] at h; exact Option.noConfusion h
  | cons lN rest =>
      cases rest with
      | nil => rw [hs] at h; exact Option.noConfusion h
      | cons rN rest2 =>
          simp only [hs] at h
          cases hl : v st lN with
          | none => rw [hl] at h; exact Option.noConfusion h
          | some rl =>
              simp only [hl] at h
              obtain ⟨⟨hpl, hsl⟩, -⟩ := hv st lN rl hl
              cases hok : rl.ok with
              | false =>
                  rw [hok] at h
                  simp only [Bool.false_eq_true, if_false, Option.some.injEq] at h
                  subst h
                  exact ⟨hpl, fun hc => absurd hc Bool.false_ne_true⟩
              | true =>
                  rw [hok, if_pos rfl] at h
                  cases hr : v rl.st rN with
                  | none => rw [hr] at h; exact Option.noConfusion h
                  | some rr =>
                      simp only [hr] at h
                      obtain ⟨⟨hpr, hsr⟩, -⟩ := hv rl.st rN rr hr
                      cases hok2 : rr.ok with
                      | false =>
                          rw [hok2] at h
                          simp only [Bool.false_eq_true, if_false, Option.some.injEq] at h
                          subst h
                          exact ⟨pres_trans hpl hpr, fun hc => absurd hc Bool.false_ne_true⟩
                      | true =>
                          rw [hok2, if_pos rfl] at h
                          simp only [genInstId, Option.some.injEq] at h
                          subst h
                          refine ⟨pres_trans hpl (pres_trans hpr (pres_of_parts rfl rfl rfl)), ?_⟩
                          intro _ hfa
                          have hfa2 : rr.st.anyFail = false := hfa
                          have hfa1 : rl.st.anyFail = false := anyFail_false_of_pres hpr hfa2
                          obtain ⟨hl1, hc1⟩ := hsl hok hfa1
                          obtain ⟨hl2, hc2⟩ := hsr hok2 hfa2
                          exact ⟨hl2.trans hl1, curOk_trans hc1 hc2⟩

theorem ir_relop_good {v : Visitor} (hv : goodV v) {st : GenState} {n : AstNode} {op : BinOp}
    {r : VRes} (h : ir_relop v st n op = some r) : good st r := by
  unfold ir_relop at h
  cases hcf : st.mod.curFunc with
  | none =>
      rw [hcf] at h
      simp only [Option.some.injEq] at h
      subst h
      exact good_of_st_eq rfl
  | some cf =>
      rw [hcf] at h
      cases hs : n.sons with
      | nil => rw [hs] at h; exact Option.noConfusion h
      | cons lN rest =>
          cases rest with
          | nil => rw [hs] at h; exact Option.noConfusion h
          | cons rN rest2 =>
              simp only [hs] at h
              cases hl : v st lN with
              | none => rw [hl] at h; exact Option.noConfusion h
              | some rl =>
                  simp only [hl] at h
                  obtain ⟨⟨hpl, hsl⟩, -⟩ := hv st lN rl hl
                  cases hr : v rl.st rN with
                  | none => rw [hr] at h; exact Option.noConfusion h
                  | some rr =>
                      simp only [hr] at h
                      obtain ⟨⟨hpr, hsr⟩, -⟩ := hv rl.st rN rr hr
                      cases hok : rl.ok && rr.ok with
                      | false =>
                          rw [hok] at h
                          simp only [Bool.false_eq_true, if_false, Option.some.injEq] at h
                          subst h
                          exact ⟨pres_trans hpl hpr, fun hc => absurd hc Bool.false_ne_true⟩
                      | true =>
                          rw [hok, if_pos rfl] at h
                          simp only [genInstId, Option.some.injEq] at h
                          subst h
                          obtain ⟨hok1, hok2⟩ := Bool.and_eq_true_iff.mp hok
                          refine ⟨pres_trans hpl (pres_trans hpr (pres_of_parts rfl rfl rfl)), ?_⟩
                          intro _ hfa
                          have hfa2 : rr.st.anyFail = false := hfa
                          have hfa1 : rl.st.anyFail = false := anyFail_false_of_pres hpr hfa2
                          obtain ⟨hl1, hc1⟩ := hsl hok1 hfa1
                          obtain ⟨hl2, hc2⟩ := hsr hok2 hfa2
                          exact ⟨hl2.trans hl1, curOk_trans hc1 hc2⟩

theorem ir_neg_good {v : Visitor} (hv : goodV v) {st : GenState} {n : AstNode}
    {r : VRes} (h : ir_neg v st n = some r) : good st r := by
  unfold ir_neg at h
  cases hs : n.sons with
  | nil => rw [hs] at h; exact Option.noConfusion h
  | cons srcN rest =>
      simp only [hs] at h
      cases hr : v st srcN with
      | none => rw [hr] at h; exact Option.noConfusion h
      | some rc =>
          simp only [hr] at h
          obtain ⟨⟨hp, hsOk⟩, -⟩ := hv st srcN rc hr
          cases hok : rc.ok with
          | false =>
              rw [hok] at h
              simp only [Bool.false_eq_true, if_false, Option.some.injEq] at h
              subst h
              exact ⟨hp, fun hc => absurd hc Bool.false_ne_true⟩
          | true =>
              rw [hok, if_pos rfl] at h
              simp only [genInstId, Option.some.injEq] at h
              subst h
              refine ⟨pres_trans hp (pres_of_parts rfl rfl rfl), ?_⟩
              intro _ hfa
              exact hsOk hok hfa

theorem ir_assign_good {v : Visitor} (hv : goodV v) {st : GenState} {n : AstNode}
    {r : VRes} (h : ir_assign v st n = some r) : good st r := by
  unfold ir_assign at h
  cases hs : n.sons with
  | nil => rw [hs] at h; exact Option.noConfusion h
  | cons lN rest =>
      cases rest with
      | nil => rw [hs] at h; exact Option.noConfusion h
      | cons rN rest2 =>
          simp only [hs] at h
          cases hl : v st lN with
          | none => rw [hl] at h; exact Option.noConfusion h
          | some rl =>
              simp only [hl] at h
              obtain ⟨⟨hpl, hsl⟩, -⟩ := hv st lN rl hl
              cases hok : rl.ok with
              | false =>
                  rw [hok] at h
                  simp only [Bool.false_eq_true, if_false, Option.some.injEq] at h
                  subst h
                  exact ⟨hpl, fun hc => absurd hc Bool.false_ne_true⟩
              | true =>
                  rw [hok, if_pos rfl] at h
                  cases hr : v rl.st rN with
                  | none => rw [hr] at h; exact Option.noConfusion h
                  | some rr =>
                      simp only [hr] at h
                      obtain ⟨⟨hpr, hsr⟩, -⟩ := hv rl.st rN rr hr
                      cases hok2 : rr.ok with
                      | false =>
                          rw [hok2] at h
                          simp only [Bool.false_eq_true, if_false, Option.some.injEq] at h
                          subst h
                          exact ⟨pres_trans hpl hpr, fun hc => absurd hc Bool.false_ne_true⟩
                      | true =>
                          rw [hok2, if_pos rfl] at h
                          simp only [genInstId, Option.some.injEq] at h
                          subst h
                          refine ⟨pres_trans hpl (pres_trans hpr (pres_of_parts rfl rfl rfl)), ?_⟩
                          intro _ hfa
                          have hfa2 : rr.st.anyFail = false := hfa
                          have hfa1 : rl.st.anyFail = false := anyFail_false_of_pres hpr hfa2
                          obtain ⟨hl1, hc1⟩ := hsl hok hfa1
                          obtain ⟨hl2, hc2⟩ := hsr hok2 hfa2
                          exact ⟨hl2.trans hl1, curOk_trans hc1 hc2⟩

theorem ir_return_good {v : Visitor} (hv : goodV v) {st : GenState} {n : AstNode}
    {r : VRes} (h : ir_return v st n = some r) : good st r := by
  unfold ir_return at h
  cases hs : n.sons with
  | nil =>
      simp only [hs] at h
      cases hcf : st.mod.curFunc with
      | none => simp only [hcf] at h; exact Option.noConfusion h
      | some cf =>
          simp only [hcf] at h
          cases hlf : lookupFunc st.mod cf with
          | none => simp only [hlf] at h; exact Option.noConfusion h
          | some f =>
              simp only [hlf] at h
              cases hel : f.exitLabel with
              | none => simp only [hel] at h; exact Option.noConfusion h
              | some l =>
                  simp only [hel] at h
                  simp only [Option.some.injEq] at h
                  subst h
                  exact good_of_st_eq rfl
  | cons son rest =>
      simp only [hs] at h
      cases hr : v st son with
      | none => rw [hr] at h; exact Option.noConfusion h
      | some rc =>
          simp only [hr] at h
          obtain ⟨⟨hp, hsOk⟩, -⟩ := hv st son rc hr
          cases hok : rc.ok with
          | false =>
              rw [hok] at h
              simp only [Bool.false_eq_true, if_false, Option.some.injEq] at h
              subst h
              exact ⟨hp, fun hc => absurd hc Bool.false_ne_true⟩
          | true =>
              rw [hok, if_pos rfl] at h
              cases hcf : rc.st.mod.curFunc with
              | none => simp only [hcf] at h; exact Option.noConfusion h
              | some cf =>
                  simp only [hcf] at h
                  cases hlf : lookupFunc rc.st.mod cf with
                  | none => simp only [hlf] at h; exact Option.noConfusion h
                  | some f =>
                      simp only [hlf] at h
                      cases hel : f.exitLabel with
                      | none => simp only [hel] at h; exact Option.noConfusion h
                      | some l =>
                          simp only [hel] at h
                          simp only [genInstId, Option.some.injEq] at h
                          subst h
                          refine ⟨pres_trans hp (pres_of_parts rfl rfl rfl), ?_⟩
                          intro _ hfa
                          exact hsOk hok hfa

theorem ir_and_good {v : Visitor} (hv : goodV v) {st : GenState} {n : AstNode}
    {r : VRes} (h : ir_and v st n = some r) : good st r := by
  unfold ir_and at h
  split at h
  · simp only [Option.some.injEq] at h
    subst h
    exact good_of_st_eq rfl
  · split at h
    · simp only [genLabel, newVarValueTmp, genInstId] at h
      split at h
      · exact Option.noConfusion h
      · rename_i rl hlv
        split at h
        · exact Option.noConfusion h
        · rename_i rr hrv
          simp only [Option.some.injEq] at h
          subst h
          obtain ⟨⟨hpl, hsl⟩, hfl⟩ := hv _ _ _ hlv
          obtain ⟨⟨hpr, hsr⟩, hfr⟩ := hv _ _ _ hrv
          have hp0 : pres st rr.st := pres_trans (pres_of_parts rfl rfl rfl) (pres_trans hpl hpr)
          refine ⟨pres_trans hp0 (pres_of_parts rfl rfl rfl), ?_⟩
          intro _ hfa
          have hfa2 : rr.st.anyFail = false := hfa
          have hok2 : rr.ok = true := by
            cases hok : rr.ok with
            | true => rfl
            | false =>
                have h2 := hfr hok
                rw [hfa2] at h2
                exact Bool.noConfusion h2
          have hfa1 : rl.st.anyFail = false := anyFail_false_of_pres hpr hfa2
          have hok1 : rl.ok = true := by
            cases hok : rl.ok with
            | true => rfl
            | false =>
                have h2 := hfl hok
                rw [hfa1] at h2
                exact Bool.noConfusion h2
          obtain ⟨hl1, hc1⟩ := hsl hok1 hfa1
          obtain ⟨hl2, hc2⟩ := hsr hok2 hfa2
          exact ⟨hl2.trans hl1, curOk_trans hc1 hc2⟩
    · exact Option.noConfusion h
theorem ir_or_good {v : Visitor} (hv : goodV v) {st : GenState} {n : AstNode}
    {r : VRes} (h : ir_or v st n = some r) : good st r := by
  unfold ir_or at h
  split at h
  · simp only [Option.some.injEq] at h
    subst h
    exact good_of_st_eq rfl
  · split at h
    · simp only [genLabel, newVarValueTmp, genInstId] at h
      split at h
      · exact Option.noConfusion h
      · rename_i rl hlv
        split at h
        · exact Option.noConfusion h
        · rename_i rr hrv
          simp only [Option.some.injEq] at h
          subst h
          obtain ⟨⟨hpl, hsl⟩, hfl⟩ := hv _ _ _ hlv
          obtain ⟨⟨hpr, hsr⟩, hfr⟩ := hv _ _ _ hrv
          have hp0 : pres st rr.st := pres_trans (pres_of_parts rfl rfl rfl) (pres_trans hpl hpr)
          refine ⟨pres_trans hp0 (pres_of_parts rfl rfl rfl), ?_⟩
          intro _ hfa
          have hfa2 : rr.st.anyFail = false := hfa
          have hok2 : rr.ok = true := by
            cases hok : rr.ok with
            | true => rfl
            | false =>
                have h2 := hfr hok
                rw [hfa2] at h2
                exact Bool.noConfusion h2
          have hfa1 : rl.st.anyFail = false := anyFail_false_of_pres hpr hfa2
          have hok1 : rl.ok = true := by
            cases hok : rl.ok with
            | true => rfl
            | false =>
                have h2 := hfl hok
                rw [hfa1] at h2
                exact Bool.noConfusion h2
          obtain ⟨hl1, hc1⟩ := hsl hok1 hfa1
          obtain ⟨hl2, hc2⟩ := hsr hok2 hfa2
          exact ⟨hl2.trans hl1, curOk_trans hc1 hc2⟩
    · exact Option.noConfusion h

theorem ir_if_good {v : Visitor} (hv : goodV v) {st : GenState} {n : AstNode}
    {r : VRes} (h : ir_if v st n = some r) : good st r := by
  unfold ir_if at h
  split at h
  · simp only [Option.some.injEq] at h
    subst h
    exact good_of_st_eq rfl
  · split at h
    · simp only [genLabel] at h
      split at h
      · exact Option.noConfusion h
      · rename_i rc hcv
        split at h
        · exact Option.noConfusion h
        · rename_i rt htv
          obtain ⟨⟨hpc, hsc⟩, hfc⟩ := hv _ _ _ hcv
          obtain ⟨⟨hpt, hst⟩, hft⟩ := hv _ _ _ htv
          split at h
          · split at h
            · exact Option.noConfusion h
            · rename_i re hev
              simp only [Option.some.injEq] at h
              subst h
              obtain ⟨⟨hpe, hse⟩, hfe⟩ := hv _ _ _ hev
              refine ⟨pres_trans (pres_of_parts rfl rfl rfl)
                (pres_trans hpc (pres_trans hpt hpe)), ?_⟩
              intro _ hfa
              have hfa3 : re.st.anyFail = false := hfa
              have hfa2 : rt.st.anyFail = false := anyFail_false_of_pres hpe hfa3
              have hfa1 : rc.st.anyFail = false := anyFail_false_of_pres hpt hfa2
              have hok3 : re.ok = true := by
                cases hok : re.ok with
                | true => rfl
                | false =>
                    have h2 := hfe hok
                    rw [hfa3] at h2
                    exact Bool.noConfusion h2
              have hok2 : rt.ok = true := by
                cases hok : rt.ok with
                | true => rfl
                | false =>
                    have h2 := hft hok
                    rw [hfa2] at h2
                    exact Bool.noConfusion h2
              have hok1 : rc.ok = true := by
                cases hok : rc.ok with
                | true => rfl
                | false =>
                    have h2 := hfc hok
                    rw [hfa1] at h2
                    exact Bool.noConfusion h2
              obtain ⟨hl1, hc1⟩ := hsc hok1 hfa1
              obtain ⟨hl2, hc2⟩ := hst hok2 hfa2
              obtain ⟨hl3, hc3⟩ := hse hok3 hfa3
              exact ⟨(hl3.trans hl2).trans hl1, curOk_trans hc1 (curOk_trans hc2 hc3)⟩
          · simp only [Option.some.injEq] at h
            subst h
            refine ⟨pres_trans (pres_of_parts rfl rfl rfl) (pres_trans hpc hpt), ?_⟩
            intro _ hfa
            have hfa2 : rt.st.anyFail = false := hfa
            have hfa1 : rc.st.anyFail = false := anyFail_false_of_pres hpt hfa2
            have hok2 : rt.ok = true := by
              cases hok : rt.ok with
              | true => rfl
              | false =>
                  have h2 := hft hok
                  rw [hfa2] at h2
                  exact Bool.noConfusion h2
            have hok1 : rc.ok = true := by
              cases hok : rc.ok with
              | true => rfl
              | false =>
                  have h2 := hfc hok
                  rw [hfa1] at h2
                  exact Bool.noConfusion h2
            obtain ⟨hl1, hc1⟩ := hsc hok1 hfa1
            obtain ⟨hl2, hc2⟩ := hst hok2 hfa2
            exact ⟨hl2.trans hl1, curOk_trans hc1 hc2⟩
    · exact Option.noConfusion h

theorem ir_while_good {v : Visitor} (hv : goodV v) {st : GenState} {n : AstNode}
    {r : VRes} (h : ir_while v st n = some r) : good st r := by
  unfold ir_while at h
  split at h
  · simp only [Option.some.injEq] at h
    subst h
    exact good_of_st_eq rfl
  · split at h
    · simp only [genLabel] at h
      split at h
      · exact Option.noConfusion h
      · rename_i rc hcv
        split at h
        · exact Option.noConfusion h
        · rename_i rb hbv
          simp only [Option.some.injEq] at h
          subst h
          obtain ⟨⟨hpc, hsc⟩, hfc⟩ := hv _ _ _ hcv
          obtain ⟨⟨hpb, hsb⟩, hfb⟩ := hv _ _ _ hbv
          refine ⟨⟨?_, ?_, ?_⟩, ?_⟩
          · intro hf
            exact hpb.1 (hpc.1 hf)
          · show rb.st.loopCtx.tail = st.loopCtx
            rw [hpb.2.1, hpc.2.1]
            rfl
          · exact funcsMono_trans hpc.2.2 hpb.2.2
          · intro _ hfa
            have hfa2 : rb.st.anyFail = false := hfa
            have hfa1 : rc.st.anyFail = false := anyFail_false_of_pres hpb hfa2
            have hok2 : rb.ok = true := by
              cases hok : rb.ok with
              | true => rfl
              | false =>
                  have h2 := hfb hok
                  rw [hfa2] at h2
                  exact Bool.noConfusion h2
            have hok1 : rc.ok = true := by
              cases hok : rc.ok with
              | true => rfl
              | false =>
                  have h2 := hfc hok
                  rw [hfa1] at h2
                  exact Bool.noConfusion h2
            obtain ⟨hl1, hc1⟩ := hsc hok1 hfa1
            obtain ⟨hl2, hc2⟩ := hsb hok2 hfa2
            exact ⟨hl2.trans hl1, curOk_trans hc1 hc2⟩
    · exact Option.noConfusion h

theorem pres_markCall (st : GenState) (cf : String) : pres st (markCall st cf) :=
  ⟨fun hf => hf, rfl, funcsMono_markCall st cf⟩

theorem pres_raiseMax (st : GenState) (cf : String) (argc : Int) :
    pres st (raiseMax st cf argc) :=
  ⟨fun hf => hf, rfl, funcsMono_raiseMax st cf argc⟩

theorem mkCall_good {st : GenState} {fname : String} {vals : List (Option Value)}
    {argInsts : List Instr} {callee : IRFunction} {r : VRes}
    (h : mkCall st fname vals argInsts callee = some r) : good st r := by
  unfold mkCall at h
  split at h
  · simp only [Option.some.injEq] at h
    subst h
    exact good_of_st_eq rfl
  · simp only [genInstId, Option.some.injEq] at h
    subst h
    exact ⟨pres_of_parts rfl rfl rfl, fun _ _ => ⟨rfl, curOk_refl _⟩⟩

theorem ir_function_call_good {v : Visitor} (hv : goodV v) {st : GenState} {n : AstNode}
    {r : VRes} (h : ir_function_call v st n = some r) : good st r := by
  unfold ir_function_call at h
  split at h
  · split at h
    · simp only [Option.some.injEq] at h
      subst h
      exact good_of_st_eq rfl
    · rename_i callee hcallee
      split at h
      · exact Option.noConfusion h
      · rename_i cf hcf
        split at h
        · -- no arguments
          have hg := mkCall_good h
          exact ⟨pres_trans (pres_markCall st cf) hg.1, fun hok hfa => hg.2 hok hfa⟩
        · -- at least one argument
          simp only [] at h
          split at h
          · exact Option.noConfusion h
          · rename_i res ok st3 argInsts vals hargs
            obtain ⟨hpArgs, hsArgs, hfArgs⟩ := visitArgs_good v hv _ _ _ _ _ _ hargs
            have hp0 : pres st st3 :=
              pres_trans (pres_markCall st cf)
                (pres_trans (pres_raiseMax (markCall st cf) cf _) hpArgs)
            split at h
            · rename_i hcond
              have hg := mkCall_good h
              refine ⟨pres_trans hp0 hg.1, ?_⟩
              intro hok hfa
              have hfa3 : st3.anyFail = false := anyFail_false_of_pres hg.1 hfa
              obtain ⟨hl1, hc1⟩ := hsArgs hcond hfa3
              obtain ⟨hl2, hc2⟩ := hg.2 hok hfa
              exact ⟨hl2.trans hl1, curOk_trans hc1 hc2⟩
            · simp only [Option.some.injEq] at h
              subst h
              exact ⟨hp0, fun hc => absurd hc Bool.false_ne_true⟩
  · exact Option.noConfusion h

theorem name_ne_of_lookup {m : ModuleState} {t nm : String} {g : IRFunction}
    (hnone : lookupFunc m t = none) (hg : lookupFunc m nm = some g) : g.name ≠ t := by
  intro he
  have hn := lookupFunc_name hg
  rw [hn] at he
  subst he
  rw [hg] at hnone
  cases hnone

theorem ir_function_formal_params_parts {v : Visitor} {st : GenState} {n : AstNode} {r : VRes}
    (h : ir_function_formal_params v st n = some r) :
    r = { ok := true, st := st, insts := [], val := none } :=
  (Option.some_injective _ h).symm

theorem funcsMono_updateFunc_absent {m0 m : ModuleState} {t : String}
    {f : IRFunction → IRFunction} (hnone : lookupFunc m0 t = none)
    (hm : funcsMono m0 m) (hf : ∀ x, (f x).name = x.name) :
    funcsMono m0 (updateFunc m t f) := by
  intro nm g hg
  obtain ⟨g', hg', p1, p2, p3, p4, p5, p6, p7, p8⟩ := hm nm g hg
  refine ⟨g', ?_, p1, p2, p3, p4, p5, p6, p7, p8⟩
  refine lookupFunc_updateFunc_ne t f hf hg' ?_
  rw [p1]
  exact name_ne_of_lookup hnone hg

theorem funcsMono_append_new (m : ModuleState) (newf : IRFunction) :
    funcsMono m { m with funcs := m.funcs ++ [newf] } := by
  intro nm g hg
  exact ⟨g, lookupFunc_append_old hg _, rfl, rfl, rfl, rfl, rfl, rfl, fun hh => hh, le_refl _⟩

set_option maxHeartbeats 1000000 in
theorem ir_function_define_good {v : Visitor} (hv : goodV v) {st : GenState} {n : AstNode}
    {r : VRes} (h : ir_function_define v st n = some r) : good st r := by
  unfold ir_function_define at h
  split at h
  · simp only [Option.some.injEq] at h
    subst h
    exact good_of_st_eq rfl
  · rename_i hcur
    split at h
    · rename_i tyQ nameQ paramQ blockQ restQ heqSons
      split at h
      · simp only [Option.some.injEq] at h
        subst h
        exact good_of_st_eq rfl
      · rename_i mod1 hnew
        obtain ⟨hnone, hmod1⟩ := newFunction_some hnew
        subst hmod1
        simp only [genLabel] at h
        split at h
        · rename_i hpr0
          exact Option.noConfusion hpr0
        · rename_i pr hpr
          have hpreq := ir_function_formal_params_parts hpr
          subst hpreq
          rw [if_pos rfl] at h
          by_cases hvoid : tyQ.ty = Ty.tvoid
          all_goals
            first
            | rw [if_pos hvoid] at h
            | rw [if_neg hvoid] at h
          all_goals
            simp only [newVarValueTmp] at h
            split at h
            · exact Option.noConfusion h
            · rename_i br hbr
              have hbg := ir_block_core_good hv hbr
              split at h
              · rename_i hbrok
                simp only [Option.some.injEq] at h
                subst h
                refine ⟨⟨?_, ?_, ?_⟩, ?_⟩
                · intro hf
                  exact hbg.1.1 hf
                · exact hbg.1.2.1
                · refine funcsMono_updateFunc_absent hnone ?_ (fun x => rfl)
                  refine funcsMono_trans ?_ hbg.1.2.2
                  refine funcsMono_updateFunc_absent hnone ?_ (fun x => rfl)
                  refine funcsMono_updateFunc_absent hnone ?_ (fun x => rfl)
                  refine funcsMono_updateFunc_absent hnone ?_ (fun x => rfl)
                  exact funcsMono_append_new st.mod _
                · intro _ hfa
                  have hfab : br.st.anyFail = false := hfa
                  obtain ⟨hl, hc⟩ := hbg.2 hbrok hfab
                  constructor
                  · show (br.st.mod.scopes.tail).length = st.mod.scopes.length
                    rw [List.length_tail, hl]
                    rfl
                  · exact Or.inr rfl
              · simp only [Option.some.injEq] at h
                subst h
                refine ⟨⟨?_, ?_, ?_⟩, fun hc => absurd hc Bool.false_ne_true⟩
                · intro hf
                  exact hbg.1.1 hf
                · exact hbg.1.2.1
                · refine funcsMono_trans ?_ hbg.1.2.2
                  refine funcsMono_updateFunc_absent hnone ?_ (fun x => rfl)
                  refine funcsMono_updateFunc_absent hnone ?_ (fun x => rfl)
                  refine funcsMono_updateFunc_absent hnone ?_ (fun x => rfl)
                  exact funcsMono_append_new st.mod _
    · exact Option.noConfusion h

theorem stepCore_good {v : Visitor} (hv : goodV v) {st : GenState} {n : AstNode} {r : VRes}
    (h : stepCore v st n = some r) : good st r := by
  unfold stepCore at h
  cases hop : n.op <;> rw [hop] at h <;>
    first
    | exact ir_compile_unit_good hv h
    | exact ir_function_define_good hv h
    | exact ir_function_formal_params_good h
    | exact ir_function_call_good hv h
    | exact ir_block_good hv h
    | exact ir_declare_statment_good h
    | exact ir_variable_declare_good h
    | exact ir_assign_good hv h
    | exact ir_return_good hv h
    | exact ir_if_good hv h
    | exact ir_while_good hv h
    | exact ir_break_good h
    | exact ir_continue_good h
    | exact ir_arith_good hv h
    | exact ir_neg_good hv h
    | exact ir_and_good hv h
    | exact ir_or_good hv h
    | exact ir_not_good hv h
    | exact ir_relop_good hv h
    | exact ir_leaf_node_uint_good h
    | exact ir_leaf_node_var_id_good h
    | exact ir_leaf_node_type_good h

theorem visitStep_good {v : Visitor} (hv : goodV v) : goodV (visitStep v) := by
  intro s n r h
  unfold visitStep at h
  cases hc : stepCore v s n with
  | none => rw [hc] at h; exact Option.noConfusion h
  | some r0 =>
      simp only [hc] at h
      have hg := stepCore_good hv hc
      cases hok : r0.ok with
      | true =>
          rw [hok, if_pos rfl] at h
          simp only [Option.some.injEq] at h
          subst h
          refine ⟨hg, ?_⟩
          intro hfalse
          rw [hok] at hfalse
          exact Bool.noConfusion hfalse
      | false =>
          rw [hok] at h
          simp only [Bool.false_eq_true, if_false, Option.some.injEq] at h
          subst h
          refine ⟨⟨⟨fun _ => rfl, hg.1.2.1, hg.1.2.2⟩, ?_⟩, fun _ => rfl⟩
          intro hc2
          exact Bool.noConfusion hc2

theorem visit_goodV : ∀ fuel : Nat, goodV (visit fuel) := by
  intro fuel
  induction fuel with
  | zero => intro s n r h; exact Option.noConfusion h
  | succ fuel ih =>
      intro s n r h
      exact visitStep_good ih s n r h

theorem visit_pres {fuel : Nat} {st : GenState} {n : AstNode} {r : VRes}
    (h : visit fuel st n = some r) : pres st r.st :=
  ((visit_goodV fuel st n r h).1).1

theorem visit_loopCtx_eq {fuel : Nat} {st : GenState} {n : AstNode} {r : VRes}
    (h : visit fuel st n = some r) : r.st.loopCtx = st.loopCtx :=
  (visit_pres h).2.1

theorem visit_funcsMono {fuel : Nat} {st : GenState} {n : AstNode} {r : VRes}
    (h : visit fuel st n = some r) : funcsMono st.mod r.st.mod :=
  (visit_pres h).2.2

theorem visit_fail_flag {fuel : Nat} {st : GenState} {n : AstNode} {r : VRes}
    (h : visit fuel st n = some r) (hok : r.ok = false) : r.st.anyFail = true :=
  (visit_goodV fuel st n r h).2 hok

theorem visit_scopeOk {fuel : Nat} {st : GenState} {n : AstNode} {r : VRes}
    (h : visit fuel st n = some r) (hok : r.ok = true) (hfa : r.st.anyFail = false) :
    scopeOk st r :=
  ((visit_goodV fuel st n r h).1).2 hok hfa

/-- C1: the claimed label invariant is violated by the source's AND lowering:
translating `int main() { 1 && 1; }` succeeds, yet the left-true label
`L1` is emitted as a Label instruction twice in main's linear instruction
sequence (the handler appends the same label object at two points), so the
"each label name appears exactly once" invariant is false for this produced
Function. -/
theorem C1_and_emits_true_label_twice :
    (run 16 initState progAnd).map Prod.fst = some true ∧
    labelCount (funcCodeOf (visit 16 initState progAnd) "main") "L1" = 2 ∧
    labelInvariant (funcCodeOf (visit 16 initState progAnd) "main") = false := by
  refine ⟨rfl, by decide, by decide⟩

/-- C2: failure does not propagate through IF: on `int main() { if (1) break; }`
the break handler fails (the ghost `anyFail` flag records a handler failure),
yet `ir_if` ignores the child's result and the top-level run() returns true —
refuting the claim that any handler failure bubbles up to a false run(). -/
theorem C2_if_swallows_child_failure :
    (run 16 initState progIfBreak).map (fun p => (p.1, p.2.anyFail)) =
      some (true, true) := rfl

/-- C3 counterexample: on a formal-parameter node with one formal `(int, x)`
the handler emits no Move (no instructions at all), creates no
FormalParameter value and no binding, and leaves the state untouched —
refuting the claim that each formal produces a FormalParameter, a local and
a Move. -/
theorem C3_formal_params_counterexample :
    ir_function_formal_params (visit 8) initState paramOneFormal =
      some { ok := true, st := initState, insts := [], val := none } ∧
    paramOneFormal.sons.length = 1 :=
  ⟨rfl, rfl⟩

/-- C3 (amended): the formal-parameter handler of the source is a stub: for
*every* formal list (empty or not) it emits no instructions, creates no
values and no bindings, leaves the state unchanged, and succeeds; the block
it contributes to `ir_function_define` is therefore always empty. -/
theorem C3_formal_params_stub (v : Visitor) (st : GenState) (n : AstNode) :
    ir_function_formal_params v st n =
      some { ok := true, st := st, insts := [], val := none } :=
  rfl

/-- C4 counterexample: on `int main() { break; }` run() returns false, and the
failure path of `ir_function_define` skips both `leaveScope` and the reset of
the current function: the scope stack has grown from one frame to two and the
current-function slot still holds `main` — refuting the claim for runs that
return false. -/
theorem C4_scope_leak_on_failure :
    initState.mod.scopes.length = 1 ∧
    (run 16 initState progBreak).map
        (fun p => (p.1, p.2.mod.scopes.length, p.2.mod.curFunc)) =
      some (false, 2, some "main") :=
  ⟨rfl, rfl⟩

/-- C4 (amended): after a run of a compile-unit root in which every handler
succeeded — run() returned true and the ghost failure flag is still clear, so
no failing child was swallowed by an IF/WHILE — the scope stack has exactly
as many frames as before the call and the current-function slot is null. -/
theorem C4_scope_hygiene_clean_run (fuel : Nat) (st : GenState) (root : AstNode) (r : VRes)
    (hroot : root.op = AstOp.CompileUnit)
    (hrun : visit fuel st root = some r) (hok : r.ok = true)
    (hclean : r.st.anyFail = false) :
    r.st.mod.scopes.length = st.mod.scopes.length ∧ r.st.mod.curFunc = none := by
  refine ⟨(visit_scopeOk hrun hok hclean).1, ?_⟩
  cases fuel with
  | zero => exact Option.noConfusion hrun
  | succ fuel =>
      have h2 : visitStep (visit fuel) st root = some r := hrun
      unfold visitStep at h2
      cases hc : stepCore (visit fuel) st root with
      | none => rw [hc] at h2; exact Option.noConfusion h2
      | some r0 =>
          simp only [hc] at h2
          cases hok0 : r0.ok with
          | false =>
              rw [hok0] at h2
              simp only [Bool.false_eq_true, if_false, Option.some.injEq] at h2
              subst h2
              exact Bool.noConfusion hok
          | true =>
              rw [hok0, if_pos rfl] at h2
              simp only [Option.some.injEq] at h2
              subst h2
              unfold stepCore at hc
              rw [hroot] at hc
              have hc2 : ir_compile_unit (visit fuel) st root = some r0 := hc
              unfold ir_compile_unit at hc2
              simp only [] at hc2
              cases hall : visitAll (visit fuel)
                  { st with mod := { st.mod with curFunc := none } } root.sons with
              | none => rw [hall] at hc2; exact Option.noConfusion hc2
              | some res =>
                  obtain ⟨ok2, st2⟩ := res
                  rw [hall] at hc2
                  simp only [Option.some.injEq] at hc2
                  subst hc2
                  obtain ⟨hp, hsc, -⟩ := visitAll_good (visit fuel) (visit_goodV fuel) _ _ _ _ hall
                  have hok2 : ok2 = true := hok0
                  have hfa2 : st2.anyFail = false := hclean
                  obtain ⟨-, hcur⟩ := hsc hok2 hfa2
                  rcases hcur with hcur | hcur
                  · exact hcur
                  · exact hcur

/-- C4 witness: the amended scope-hygiene theorem applied to the empty
translation unit in the initial state. -/
theorem C4_scope_hygiene_witness :
    runEmptyRes.st.mod.scopes.length = initState.mod.scopes.length ∧
      runEmptyRes.st.mod.curFunc = none :=
  C4_scope_hygiene_clean_run 2 initState progEmpty runEmptyRes rfl rfl rfl rfl

set_option maxHeartbeats 1000000 in
/-- C5: a successfully translated FUNC_DEF yields a Function whose linear
instruction sequence begins with Entry and ends with the stored exit Label
immediately followed by an Exit referencing the return-value slot (a fresh
local variable of the return type when non-void, null when void); nothing
follows the Exit. -/
theorem C5_function_shape (fuel : Nat) (st : GenState)
    (n tyN nameN paramN blockN : AstNode) (r : VRes)
    (hsons : n.sons = [tyN, nameN, paramN, blockN])
    (hrun : ir_function_define (visit fuel) st n = some r) (hok : r.ok = true) :
    ∃ f mid l rv,
      lookupFunc r.st.mod nameN.name = some f ∧
      f.interCode = Instr.entry :: (mid ++ [Instr.label l, Instr.exit rv]) ∧
      f.exitLabel = some l ∧ f.retValue = rv ∧
      (tyN.ty = Ty.tvoid → rv = none) ∧
      (tyN.ty ≠ Ty.tvoid → ∃ id, rv = some (Value.localVar id tyN.ty)) := by
  unfold ir_function_define at hrun
  split at hrun
  · simp only [Option.some.injEq] at hrun
    subst hrun
    exact Bool.noConfusion hok
  · rename_i hcur
    simp only [hsons] at hrun
    split at hrun
    · simp only [Option.some.injEq] at hrun
      subst hrun
      exact Bool.noConfusion hok
    · rename_i mod1 hnew
      obtain ⟨hnone, hmod1⟩ := newFunction_some hnew
      subst hmod1
      simp only [genLabel] at hrun
      split at hrun
      · rename_i hpr0
        exact Option.noConfusion hpr0
      · rename_i pr hpr
        have hpreq := ir_function_formal_params_parts hpr
        subst hpreq
        rw [if_pos rfl] at hrun
        have l1 : lookupFunc
            { st.mod with funcs := st.mod.funcs ++ [mkFunc nameN.name tyN.ty] }
            nameN.name = some (mkFunc nameN.name tyN.ty) :=
          lookupFunc_append_new hnone _ rfl
        have l2 := lookupFunc_updateFunc_self
          (fun g => { g with interCode := g.interCode ++ [Instr.entry] }) (fun x => rfl) l1
        have l3 := lookupFunc_updateFunc_self
          (fun g => { g with exitLabel := some (mkLabel st.labelCnt) }) (fun x => rfl) l2
        by_cases hvoid : tyN.ty = Ty.tvoid
        · rw [if_pos hvoid] at hrun
          have l4 := lookupFunc_updateFunc_self
            (fun g => { g with retValue := (none : Option Value) }) (fun x => rfl) l3
          split at hrun
          · exact Option.noConfusion hrun
          · rename_i br hbr
            have hbm : funcsMono _ br.st.mod :=
              (ir_block_core_good (visit_goodV fuel) hbr).1.2.2
            obtain ⟨g4, lg4, p1, p2, p3, p4, p5, p6, p7, p8⟩ := hbm nameN.name _ l4
            split at hrun
            · rename_i hbrok
              simp only [Option.some.injEq] at hrun
              subst hrun
              have l5 := lookupFunc_updateFunc_self
                (fun g => { g with interCode := g.interCode ++
                  ([] ++ br.insts ++
                    [Instr.label (mkLabel st.labelCnt), Instr.exit none]) })
                (fun x => rfl) lg4
              refine ⟨_, br.insts, mkLabel st.labelCnt, none, l5, ?_, ?_, ?_,
                fun _ => rfl, fun hc => absurd hvoid hc⟩
              · show g4.interCode ++ _ = _
                rw [p4]
                simp [mkFunc]
              · show g4.exitLabel = _
                rw [p5]
              · show g4.retValue = _
                rw [p6]
            · simp only [Option.some.injEq] at hrun
              subst hrun
              exact Bool.noConfusion hok
        · rw [if_neg hvoid] at hrun
          simp only [newVarValueTmp] at hrun
          have l4 := lookupFunc_updateFunc_self
            (fun g => { g with retValue := some (Value.localVar st.mod.varCnt tyN.ty) })
            (fun x => rfl) l3
          split at hrun
          · exact Option.noConfusion hrun
          · rename_i br hbr
            have hbm : funcsMono _ br.st.mod :=
              (ir_block_core_good (visit_goodV fuel) hbr).1.2.2
            obtain ⟨g4, lg4, p1, p2, p3, p4, p5, p6, p7, p8⟩ := hbm nameN.name _ l4
            split at hrun
            · rename_i hbrok
              simp only [Option.some.injEq] at hrun
              subst hrun
              have l5 := lookupFunc_updateFunc_self
                (fun g => { g with interCode := g.interCode ++
                  ([] ++ br.insts ++
                    [Instr.label (mkLabel st.labelCnt),
                     Instr.exit (some (Value.localVar st.mod.varCnt tyN.ty))]) })
                (fun x => rfl) lg4
              refine ⟨_, br.insts, mkLabel st.labelCnt,
                some (Value.localVar st.mod.varCnt tyN.ty), l5, ?_, ?_, ?_,
                fun hc => absurd hc hvoid, fun _ => ⟨st.mod.varCnt, rfl⟩⟩
              · show g4.interCode ++ _ = _
                rw [p4]
                simp [mkFunc]
              · show g4.exitLabel = _
                rw [p5]
              · show g4.retValue = _
                rw [p6]
            · simp only [Option.some.injEq] at hrun
              subst hrun
              exact Bool.noConfusion hok

/-- C5 witness: the shape theorem applied to `int f0() {}` in the initial
state. -/
theorem C5_function_shape_witness :
    ∃ f mid l rv,
      lookupFunc demoDefRes.st.mod (nameLeaf "f0").name = some f ∧
      f.interCode = Instr.entry :: (mid ++ [Instr.label l, Instr.exit rv]) ∧
      f.exitLabel = some l ∧ f.retValue = rv ∧
      ((leafTy Ty.tint).ty = Ty.tvoid → rv = none) ∧
      ((leafTy Ty.tint).ty ≠ Ty.tvoid → ∃ id, rv = some (Value.localVar id (leafTy Ty.tint).ty)) :=
  C5_function_shape 4 initState (funcDefN Ty.tint "f0" []) (leafTy Ty.tint)
    (nameLeaf "f0") (formals []) (blk []) demoDefRes rfl rfl rfl

set_option maxHeartbeats 1000000 in
/-- C6: the FUNC_CALL contract: an unregistered callee fails the handler with
nothing emitted; otherwise the handler marks the current function, visits the
arguments left-to-right (threading the state exactly as `visitArgs` does),
fails on an argument failure or on an arity mismatch (keeping the already
spliced argument instructions), and otherwise appends exactly one FuncCall
instruction, which becomes the node's value. -/
theorem C6_function_call_contract (v : Visitor) (st : GenState)
    (n nameN paramsN : AstNode) (r : VRes)
    (hsons : n.sons = [nameN, paramsN])
    (hrun : ir_function_call v st n = some r) :
    (lookupFunc st.mod nameN.name = none →
      r = { ok := false, st := st, insts := [], val := none }) ∧
    (∀ callee cf, lookupFunc st.mod nameN.name = some callee →
      st.mod.curFunc = some cf →
      ((callee.params ≠ [] → paramsN.sons = [] → r.ok = false ∧ r.insts = []) ∧
       (callee.params = [] → paramsN.sons = [] →
          ∃ id, r.ok = true ∧
            r.insts = [Instr.funcCall id nameN.name [] callee.retTy] ∧
            r.val = some (Value.instrRef id)) ∧
       (∀ ok st3 argInsts vals,
          paramsN.sons ≠ [] →
          visitArgs v (raiseMax (markCall st cf) cf (paramsN.sons.length : Int))
              paramsN.sons = some (ok, st3, argInsts, vals) →
          ((ok = false → r.ok = false ∧ r.insts = argInsts) ∧
           (ok = true → vals.length ≠ callee.params.length →
              r.ok = false ∧ r.insts = argInsts) ∧
           (ok = true → vals.length = callee.params.length →
              ∃ id, r.ok = true ∧
                r.insts = argInsts ++ [Instr.funcCall id nameN.name vals callee.retTy] ∧
                r.val = some (Value.instrRef id)))))) := by
  unfold ir_function_call at hrun
  simp only [hsons] at hrun
  cases hlf : lookupFunc st.mod nameN.name with
  | none =>
      simp only [hlf, Option.some.injEq] at hrun
      subst hrun
      refine ⟨fun _ => rfl, ?_⟩
      intro callee cf hcallee hcf
      exact Option.noConfusion hcallee
  | some callee0 =>
      simp only [hlf] at hrun
      cases hcf0 : st.mod.curFunc with
      | none => rw [hcf0] at hrun; exact Option.noConfusion hrun
      | some cf0 =>
          simp only [hcf0] at hrun
          refine ⟨?_, ?_⟩
          · intro hnone
            exact Option.noConfusion hnone
          · intro callee cf hcallee hcf
            obtain rfl : callee0 = callee := Option.some.inj hcallee
            obtain rfl : cf0 = cf := Option.some.inj hcf
            cases hps : paramsN.sons with
            | nil =>
                simp only [hps] at hrun
                refine ⟨?_, ?_, ?_⟩
                · intro hne _
                  unfold mkCall at hrun
                  have hc : (([] : List (Option Value)).length ≠ callee0.params.length) := by
                    intro he
                    exact hne (List.length_eq_zero.mp he.symm)
                  rw [if_pos hc] at hrun
                  simp only [Option.some.injEq] at hrun
                  subst hrun
                  exact ⟨rfl, rfl⟩
                · intro hpe _
                  unfold mkCall at hrun
                  have hc : ¬ (([] : List (Option Value)).length ≠ callee0.params.length) := by
                    simp [hpe]
                  rw [if_neg hc] at hrun
                  simp only [genInstId, Option.some.injEq] at hrun
                  subst hrun
                  exact ⟨(markCall st cf0).instCnt, rfl, rfl, rfl⟩
                · intro ok st3 argInsts vals hne hargs
                  exact absurd rfl hne
            | cons c cs =>
                simp only [hps] at hrun
                refine ⟨fun _ hcontra => List.noConfusion hcontra,
                  fun _ hcontra => List.noConfusion hcontra, ?_⟩
                intro ok st3 argInsts vals hne hargs
                simp only [hargs] at hrun
                cases hok : ok with
                | false =>
                    rw [hok] at hrun
                    simp only [Bool.false_eq_true, if_false, Option.some.injEq] at hrun
                    subst hrun
                    exact ⟨fun _ => ⟨rfl, rfl⟩, fun hc => Bool.noConfusion hc,
                      fun hc => Bool.noConfusion hc⟩
                | true =>
                    rw [hok, if_pos rfl] at hrun
                    unfold mkCall at hrun
                    by_cases harity : vals.length = callee0.params.length
                    · rw [if_neg (by simp [harity])] at hrun
                      simp only [genInstId, Option.some.injEq] at hrun
                      subst hrun
                      refine ⟨fun hc => Bool.noConfusion hc, ?_, ?_⟩
                      · intro _ hcne
                        exact absurd harity hcne
                      · intro _ _
                        exact ⟨st3.instCnt, rfl, rfl, rfl⟩
                    · rw [if_pos harity] at hrun
                      simp only [Option.some.injEq] at hrun
                      subst hrun
                      refine ⟨fun hc => Bool.noConfusion hc, fun _ _ => ⟨rfl, rfl⟩, ?_⟩
                      intro _ hceq
                      exact absurd hceq harity

/-- C6 witness: the contract applied to `f(1, 2)` while `f` has one formal:
both arguments are visited, then the arity check fails the handler. -/
theorem C6_function_call_witness :
    call2Res.ok = false ∧ call2Res.insts = [] := by
  have h := C6_function_call_contract (visit 4) stWithF call2Node
    (nameLeaf "f") (formals [lit 1, lit 2]) call2Res rfl rfl
  exact ((h.2 fRec "f" rfl rfl).2.2
    true stF2 [] [some (Value.constInt 1), some (Value.constInt 2)]
    (List.cons_ne_nil _ _) rfl).2.1 rfl (by decide)

/-- C7: the WHILE lowering emits, in order: the loop-entry Label, the
condition's instructions, a BT to the body label, the loop-exit Label, the
loop-body Label, the body's instructions and a Goto back to the entry label;
the `(entry, body, exit)` triple is pushed on the loop-context stack before
the body (indeed before the condition) is visited — it is the top of the
stack in the state handed to the body — and popped afterwards. -/
theorem C7_while_shape (v : Visitor) (st : GenState) (n condN bodyN : AstNode) (r : VRes)
    (hsons : n.sons = [condN, bodyN]) (hcf : st.mod.curFunc.isSome = true)
    (hpres : ∀ s m q, v s m = some q → q.st.loopCtx = s.loopCtx)
    (hrun : ir_while v st n = some r) :
    ∃ rc rb,
      v (whileSetup st) condN = some rc ∧
      rc.st.loopCtx = loopTriple st :: st.loopCtx ∧
      v rc.st bodyN = some rb ∧
      r.ok = true ∧
      r.insts = [Instr.label (mkLabel st.labelCnt)] ++ rc.insts ++
        [Instr.bt rc.val (mkLabel (st.labelCnt + 1)),
         Instr.label (mkLabel (st.labelCnt + 1 + 1)),
         Instr.label (mkLabel (st.labelCnt + 1))] ++
        rb.insts ++ [Instr.goto (mkLabel st.labelCnt)] ∧
      r.st.loopCtx = st.loopCtx := by
  unfold ir_while at hrun
  cases hcfe : st.mod.curFunc with
  | none => rw [hcfe] at hcf; exact Bool.noConfusion hcf
  | some cf =>
      simp only [hcfe, hsons, genLabel] at hrun
      split at hrun
      · exact Option.noConfusion hrun
      · rename_i rc hcv
        split at hrun
        · exact Option.noConfusion hrun
        · rename_i rb hbv
          simp only [Option.some.injEq] at hrun
          subst hrun
          have hctx : rc.st.loopCtx = loopTriple st :: st.loopCtx := hpres _ _ _ hcv
          refine ⟨rc, rb, hcv, hctx, hbv, rfl, rfl, ?_⟩
          show rb.st.loopCtx.tail = st.loopCtx
          rw [hpres _ _ _ hbv, hctx]
          rfl

/-- C7 witness: the shape theorem applied to `while (1) {}` in the middle of
translating `f0`. -/
theorem C7_while_shape_witness :
    ∃ rc rb,
      visit 8 (whileSetup stInFunc) (lit 1) = some rc ∧
      rc.st.loopCtx = loopTriple stInFunc :: stInFunc.loopCtx ∧
      visit 8 rc.st (blk []) = some rb ∧
      whileRes.ok = true ∧
      whileRes.insts = [Instr.label (mkLabel stInFunc.labelCnt)] ++ rc.insts ++
        [Instr.bt rc.val (mkLabel (stInFunc.labelCnt + 1)),
         Instr.label (mkLabel (stInFunc.labelCnt + 1 + 1)),
         Instr.label (mkLabel (stInFunc.labelCnt + 1))] ++
        rb.insts ++ [Instr.goto (mkLabel stInFunc.labelCnt)] ∧
      whileRes.st.loopCtx = stInFunc.loopCtx :=
  C7_while_shape (visit 8) stInFunc whileNode (lit 1) (blk []) whileRes rfl rfl
    (fun s m q h => visit_loopCtx_eq h) rfl

/-- C8: a successfully translated ASSIGN node's instruction buffer is the
RHS's instructions, then the LHS's instructions, then a single Move from the
RHS value to the LHS value as the last instruction; that Move is the node's
value. -/
theorem C8_assign_shape (v : Visitor) (st : GenState) (n lN rN : AstNode)
    (rl rr r : VRes)
    (hsons : n.sons = [lN, rN])
    (hl : v st lN = some rl) (hlok : rl.ok = true)
    (hr : v rl.st rN = some rr) (hrok : rr.ok = true)
    (hrun : ir_assign v st n = some r) :
    ∃ id, r.ok = true ∧
      r.insts = rr.insts ++ rl.insts ++ [Instr.move id rl.val rr.val] ∧
      r.val = some (Value.instrRef id) := by
  unfold ir_assign at hrun
  simp only [hsons, hl] at hrun
  rw [hlok, if_pos rfl] at hrun
  simp only [hr] at hrun
  rw [hrok, if_pos rfl] at hrun
  simp only [genInstId, Option.some.injEq] at hrun
  subst hrun
  exact ⟨rr.st.instCnt, rfl, rfl, rfl⟩

/-- C8 witness: applied to `x = 1` in the initial state. -/
theorem C8_assign_shape_witness :
    ∃ id, assignRes.ok = true ∧
      assignRes.insts = rrW.insts ++ rlW.insts ++ [Instr.move id rlW.val rrW.val] ∧
      assignRes.val = some (Value.instrRef id) :=
  C8_assign_shape (visit 4) initState assignNode (nameLeaf "x") (lit 1)
    rlW rrW assignRes rfl rfl rfl rfl rfl rfl

theorem bindVar_varCnt (m : ModuleState) (nm : String) (v : Value) :
    (bindVar m nm v).varCnt = m.varCnt := by
  cases hs : m.scopes <;> simp [bindVar, hs]

theorem ir_variable_declare_varCnt {st : GenState} {n : AstNode} {r : VRes}
    (h : ir_variable_declare st n = some r) :
    r.st.mod.varCnt = st.mod.varCnt + 1 := by
  unfold ir_variable_declare at h
  cases hs : n.sons with
  | nil => rw [hs] at h; exact Option.noConfusion h
  | cons tyN rest =>
      cases rest with
      | nil => rw [hs] at h; exact Option.noConfusion h
      | cons nameN rest2 =>
          simp only [hs, newVarValueNamed, Option.some.injEq] at h
          subst h
          exact bindVar_varCnt _ _ _

theorem ir_variable_declare_shape {st : GenState} {c : AstNode} {r : VRes}
    (h : ir_variable_declare st c = some r) :
    ∃ tyN nameN rest, c.sons = tyN :: nameN :: rest ∧
      r.st.mod = bindVar { st.mod with varCnt := st.mod.varCnt + 1 } nameN.name
        (Value.localVar st.mod.varCnt tyN.ty) := by
  unfold ir_variable_declare at h
  cases hs : c.sons with
  | nil => rw [hs] at h; exact Option.noConfusion h
  | cons tyN rest =>
      cases rest with
      | nil => rw [hs] at h; exact Option.noConfusion h
      | cons nameN rest2 =>
          simp only [hs, newVarValueNamed, Option.some.injEq] at h
          subst h
          exact ⟨tyN, nameN, rest2, rfl, rfl⟩

theorem bindVar_headI_self (m : ModuleState) (nm : String) (v : Value)
    (hne : m.scopes ≠ []) : (nm, v) ∈ (bindVar m nm v).scopes.headI := by
  cases hs : m.scopes with
  | nil => exact absurd hs hne
  | cons s rest => simp [bindVar, hs]

theorem bindVar_headI_mono {m : ModuleState} {nm : String} {v : Value}
    {p : String × Value} (hp : p ∈ m.scopes.headI) :
    p ∈ (bindVar m nm v).scopes.headI := by
  cases hs : m.scopes with
  | nil =>
      have hbv : bindVar m nm v = m := by simp [bindVar, hs]
      rw [hbv]
      exact hp
  | cons s rest =>
      rw [hs] at hp
      simp only [List.headI_cons] at hp
      simp [bindVar, hs]
      exact Or.inr hp

theorem declLoop_headI_mono :
    ∀ (cs : List AstNode) (st : GenState) (ok : Bool) (st2 : GenState),
      declLoop st cs = some (ok, st2) →
      ∀ p, p ∈ st.mod.scopes.headI → p ∈ st2.mod.scopes.headI := by
  intro cs
  induction cs with
  | nil =>
      intro st ok st2 h p hp
      simp only [declLoop, Option.some.injEq, Prod.mk.injEq] at h
      obtain ⟨-, rfl⟩ := h
      exact hp
  | cons c rest ih =>
      intro st ok st2 h p hp
      cases hr : ir_variable_declare st c with
      | none =>
          simp only [declLoop, hr, Option.bind_eq_bind, Option.none_bind] at h
          exact Option.noConfusion h
      | some rc =>
          simp only [declLoop, hr, Option.bind_eq_bind, Option.some_bind] at h
          obtain ⟨-, -, -, -, -, pok⟩ := ir_variable_declare_parts hr
          rw [pok, if_pos rfl] at h
          have hp2 : p ∈ rc.st.mod.scopes.headI := by
            obtain ⟨tyN, nameN, rest2, hcs, hmod⟩ := ir_variable_declare_shape hr
            rw [hmod]
            exact bindVar_headI_mono hp
          cases rest with
          | nil =>
              simp only [Option.some.injEq, Prod.mk.injEq] at h
              obtain ⟨-, rfl⟩ := h
              exact hp2
          | cons c1 rest1 => exact ih rc.st ok st2 h p hp2

theorem declLoop_ok :
    ∀ (cs : List AstNode) (st : GenState) (ok : Bool) (st2 : GenState),
      cs ≠ [] → declLoop st cs = some (ok, st2) → ok = true := by
  intro cs
  induction cs with
  | nil => intro st ok st2 hne _; exact absurd rfl hne
  | cons c rest ih =>
      intro st ok st2 _ h
      cases hr : ir_variable_declare st c with
      | none =>
          simp only [declLoop, hr, Option.bind_eq_bind, Option.none_bind] at h
          exact Option.noConfusion h
      | some rc =>
          simp only [declLoop, hr, Option.bind_eq_bind, Option.some_bind] at h
          obtain ⟨-, -, -, -, -, pok⟩ := ir_variable_declare_parts hr
          rw [pok, if_pos rfl] at h
          cases rest with
          | nil =>
              simp only [Option.some.injEq, Prod.mk.injEq] at h
              exact h.1.symm
          | cons c1 rest1 => exact ih rc.st ok st2 (List.cons_ne_nil _ _) h

theorem declLoop_binds :
    ∀ (cs : List AstNode) (st st2 : GenState),
      st.mod.scopes ≠ [] →
      declLoop st cs = some (true, st2) →
      ∀ c ∈ cs, ∃ tyN nameN rest id, c.sons = tyN :: nameN :: rest ∧
        st.mod.varCnt ≤ id ∧
        (nameN.name, Value.localVar id tyN.ty) ∈ st2.mod.scopes.headI := by
  intro cs
  induction cs with
  | nil => intro st st2 _ _ c hc; exact absurd hc (List.not_mem_nil c)
  | cons c0 rest ih =>
      intro st st2 hne h c hc
      cases hr : ir_variable_declare st c0 with
      | none =>
          simp only [declLoop, hr, Option.bind_eq_bind, Option.none_bind] at h
          exact Option.noConfusion h
      | some rc =>
          simp only [declLoop, hr, Option.bind_eq_bind, Option.some_bind] at h
          obtain ⟨-, -, p3, -, -, pok⟩ := ir_variable_declare_parts hr
          rw [pok, if_pos rfl] at h
          obtain ⟨tyN, nameN, rest2, hcs, hmod⟩ := ir_variable_declare_shape hr
          have hne2 : rc.st.mod.scopes ≠ [] := by
            intro he
            apply hne
            rw [he] at p3
            exact List.length_eq_zero.mp p3.symm
          rcases List.mem_cons.mp hc with rfl | hc
          · refine ⟨tyN, nameN, rest2, st.mod.varCnt, hcs, le_refl _, ?_⟩
            have hmem : (nameN.name, Value.localVar st.mod.varCnt tyN.ty) ∈
                rc.st.mod.scopes.headI := by
              rw [hmod]
              exact bindVar_headI_self _ _ _ hne
            cases rest with
            | nil =>
                simp only [Option.some.injEq, Prod.mk.injEq] at h
                obtain ⟨-, rfl⟩ := h
                exact hmem
            | cons c1 rest1 => exact declLoop_headI_mono _ _ _ _ h _ hmem
          · cases rest with
            | nil => exact absurd hc (List.not_mem_nil c)
            | cons c1 rest1 =>
                obtain ⟨tyN', nameN', rest', id, hcs', hid, hmem⟩ := ih rc.st st2 hne2 h c hc
                refine ⟨tyN', nameN', rest', id, hcs', ?_, hmem⟩
                have hv := ir_variable_declare_varCnt hr
                omega

/-- C9: a DECL_STMT with no children makes its handler fail — the success
flag starts false and is never set, so the whole translation aborts although
nothing was wrong; with at least one child the handler succeeds, emits no
instructions, and declares each child's name as a fresh local (bound in the
innermost scope, with a variable id not used before the statement). -/
theorem C9_declaration_statement (st : GenState) (n : AstNode) (r : VRes)
    (hscopes : st.mod.scopes ≠ [])
    (hrun : ir_declare_statment st n = some r) :
    (n.sons = [] → r.ok = false ∧ r.st = st) ∧
    (n.sons ≠ [] → r.ok = true ∧ r.insts = [] ∧
      ∀ c ∈ n.sons, ∃ tyN nameN rest id, c.sons = tyN :: nameN :: rest ∧
        st.mod.varCnt ≤ id ∧
        (nameN.name, Value.localVar id tyN.ty) ∈ r.st.mod.scopes.headI) := by
  unfold ir_declare_statment at hrun
  cases hd : declLoop st n.sons with
  | none => rw [hd] at hrun; exact Option.noConfusion hrun
  | some res =>
      obtain ⟨ok, st2⟩ := res
      rw [hd] at hrun
      simp only [Option.some.injEq] at hrun
      subst hrun
      constructor
      · intro hnil
        rw [hnil] at hd
        simp only [declLoop, Option.some.injEq, Prod.mk.injEq] at hd
        obtain ⟨h1, h2⟩ := hd
        exact ⟨h1.symm, h2.symm⟩
      · intro hne
        have hok : ok = true := declLoop_ok n.sons st ok st2 hne hd
        subst hok
        exact ⟨rfl, rfl, declLoop_binds n.sons st st2 hscopes hd⟩

/-- C9 witness: `int x; int y;` in the initial state declares both names. -/
theorem C9_declaration_statement_witness :
    declNode.sons ≠ [] ∧
    (declRes.ok = true ∧ declRes.insts = [] ∧
      ∀ c ∈ declNode.sons, ∃ tyN nameN rest id, c.sons = tyN :: nameN :: rest ∧
        initState.mod.varCnt ≤ id ∧
        (nameN.name, Value.localVar id tyN.ty) ∈ declRes.st.mod.scopes.headI) :=
  ⟨List.cons_ne_nil _ _,
    (C9_declaration_statement initState declNode declRes (List.cons_ne_nil _ _) rfl).2
      (List.cons_ne_nil _ _)⟩

theorem visitArgs_funcsMono {v : Visitor}
    (hmono : ∀ s m q, v s m = some q → funcsMono s.mod q.st.mod) :
    ∀ (sons : List AstNode) (st : GenState) (ok : Bool) (st2 : GenState)
      (insts : List Instr) (vals : List (Option Value)),
      visitArgs v st sons = some (ok, st2, insts, vals) →
      funcsMono st.mod st2.mod := by
  intro sons
  induction sons with
  | nil =>
      intro st ok st2 insts vals h
      simp only [visitArgs, Option.some.injEq, Prod.mk.injEq] at h
      obtain ⟨-, rfl, -⟩ := h
      exact funcsMono_refl _
  | cons n rest ih =>
      intro st ok st2 insts vals h
      cases hr : v st n with
      | none =>
          simp only [visitArgs, hr, Option.bind_eq_bind, Option.none_bind] at h
          exact Option.noConfusion h
      | some r =>
          simp only [visitArgs, hr, Option.bind_eq_bind, Option.some_bind] at h
          cases hok : r.ok with
          | false =>
              rw [hok] at h
              simp only [Bool.false_eq_true, if_false, Option.some.injEq, Prod.mk.injEq] at h
              obtain ⟨-, rfl, -⟩ := h
              exact hmono _ _ _ hr
          | true =>
              rw [hok, if_pos rfl] at h
              cases hrec : visitArgs v r.st rest with
              | none => rw [hrec] at h; exact Option.noConfusion h
              | some res =>
                  obtain ⟨ok2, st3, insts2, vals2⟩ := res
                  rw [hrec] at h
                  simp only [Option.some_bind, Option.some.injEq, Prod.mk.injEq] at h
                  obtain ⟨-, rfl, -⟩ := h
                  exact funcsMono_trans (hmono _ _ _ hr) (ih r.st ok2 st3 insts2 vals2 hrec)

theorem raiseFun_facts (argc : Int) (g : IRFunction) :
    (if argc > g.maxFuncCallArgCnt then { g with maxFuncCallArgCnt := argc }
      else g).existFuncCall = g.existFuncCall ∧
    g.maxFuncCallArgCnt ≤ (if argc > g.maxFuncCallArgCnt then
      { g with maxFuncCallArgCnt := argc } else g).maxFuncCallArgCnt ∧
    argc ≤ (if argc > g.maxFuncCallArgCnt then
      { g with maxFuncCallArgCnt := argc } else g).maxFuncCallArgCnt := by
  by_cases h : argc > g.maxFuncCallArgCnt
  · rw [if_pos h]
    exact ⟨rfl, le_of_lt h, le_refl _⟩
  · rw [if_neg h]
    exact ⟨rfl, le_refl _, le_of_not_lt h⟩

set_option maxHeartbeats 1000000 in
/-- C10: when the callee of a FUNC_CALL is found, the current function's
`existFuncCall` flag is set and (when there are arguments) its
`maxFuncCallArgCnt` is raised to at least the argument count, all *before*
the arity check: in the state the handler returns — also when it returns
failure because of an arity mismatch — the current function's record has
`existFuncCall = true` and a `maxFuncCallArgCnt` no smaller than before and
no smaller than the argument count. -/
theorem C10_call_mutates_before_arity (v : Visitor) (st : GenState)
    (n nameN paramsN : AstNode) (r : VRes) (cf : String) (callee old : IRFunction)
    (hsons : n.sons = [nameN, paramsN])
    (hfound : lookupFunc st.mod nameN.name = some callee)
    (hcf : st.mod.curFunc = some cf)
    (hold : lookupFunc st.mod cf = some old)
    (hmono : ∀ s m q, v s m = some q → funcsMono s.mod q.st.mod)
    (hrun : ir_function_call v st n = some r) :
    ∃ g, lookupFunc r.st.mod cf = some g ∧ g.existFuncCall = true ∧
      old.maxFuncCallArgCnt ≤ g.maxFuncCallArgCnt ∧
      (paramsN.sons ≠ [] → (paramsN.sons.length : Int) ≤ g.maxFuncCallArgCnt) := by
  unfold ir_function_call at hrun
  simp only [hsons, hfound, hcf] at hrun
  have l1 : lookupFunc (markCall st cf).mod cf =
      some { old with existFuncCall := true } :=
    lookupFunc_updateFunc_self (fun g => { g with existFuncCall := true })
      (fun x => rfl) hold
  cases hps : paramsN.sons with
  | nil =>
      simp only [hps] at hrun
      unfold mkCall at hrun
      split at hrun
      · simp only [Option.some.injEq] at hrun
        subst hrun
        exact ⟨_, l1, rfl, le_refl _, fun hc => absurd rfl hc⟩
      · simp only [genInstId, Option.some.injEq] at hrun
        subst hrun
        exact ⟨_, l1, rfl, le_refl _, fun hc => absurd rfl hc⟩
  | cons c cs =>
      simp only [hps] at hrun
      have hfname : ∀ x : IRFunction,
          ((fun g => if ((c :: cs).length : Int) > g.maxFuncCallArgCnt then
            { g with maxFuncCallArgCnt := ((c :: cs).length : Int) } else g) x).name =
            x.name := by
        intro x
        dsimp only []
        split <;> rfl
      have l2 := lookupFunc_updateFunc_self _ hfname l1
      obtain ⟨hex, hm1, hm2⟩ :=
        raiseFun_facts ((c :: cs).length : Int) { old with existFuncCall := true }
      split at hrun
      · exact Option.noConfusion hrun
      · rename_i res ok st3 argInsts vals hargs
        have hAm := visitArgs_funcsMono hmono _ _ _ _ _ _ hargs
        obtain ⟨g3, lg3, p1, p2, p3, p4, p5, p6, p7, p8⟩ := hAm cf _ l2
        split at hrun
        · unfold mkCall at hrun
          split at hrun
          · simp only [Option.some.injEq] at hrun
            subst hrun
            exact ⟨g3, lg3, p7 hex, le_trans hm1 p8, fun _ => le_trans hm2 p8⟩
          · simp only [genInstId, Option.some.injEq] at hrun
            subst hrun
            exact ⟨g3, lg3, p7 hex, le_trans hm1 p8, fun _ => le_trans hm2 p8⟩
        · simp only [Option.some.injEq] at hrun
          subst hrun
          exact ⟨g3, lg3, p7 hex, le_trans hm1 p8, fun _ => le_trans hm2 p8⟩

/-- C10 witness: `f(1, 2)` while `f` (one formal) is current fails with an
arity mismatch, yet the returned state's record of `f` has `existFuncCall`
set and `maxFuncCallArgCnt` at least 2. -/
theorem C10_call_mutates_witness :
    call2Res.ok = false ∧
    ∃ g, lookupFunc call2Res.st.mod "f" = some g ∧ g.existFuncCall = true ∧
      fRec.maxFuncCallArgCnt ≤ g.maxFuncCallArgCnt ∧
      ((formals [lit 1, lit 2]).sons ≠ [] →
        (((formals [lit 1, lit 2]).sons.length : Nat) : Int) ≤ g.maxFuncCallArgCnt) :=
  ⟨rfl, C10_call_mutates_before_arity (visit 4) stWithF call2Node
    (nameLeaf "f") (formals [lit 1, lit 2]) call2Res "f" fRec fRec
    rfl rfl rfl rfl (fun s m q h => visit_funcsMono h) rfl⟩

end MiniC
